import Mathlib

set_option maxRecDepth 8192

/-!
Verification of the text-to-EPUB conversion pipeline of `src/app.py`
(`streamlit_txt2epub`).  Text is modelled as `List Char` (Python `str`),
byte buffers as `List Nat`.  External effects (charset detection, the
font file on disk, `uuid4`, Streamlit UI calls) are explicit parameters.
-/

abbrev Str := List Char

/-- ASCII whitespace, modelling the whitespace set of Python
`str.strip()` / `str.split()` (restricted to the ASCII range used by the
inputs of interest). -/
def pyWS : List Char := [' ', '\t', '\n', '\r', '\x0b', '\x0c']

def isWS (c : Char) : Bool := pyWS.contains c

/-- Python `str.split(sep)` for a one-character separator. -/
def splitOnChar (sep : Char) : Str → List Str
  | [] => [[]]
  | c :: t =>
    if c = sep then [] :: splitOnChar sep t
    else
      match splitOnChar sep t with
      | [] => [[c]]
      | l :: ls => (c :: l) :: ls

/-- Python `sep.join(parts)` (stated for any element type, so that the
same function also joins line groups in the proofs below). -/
def joinSep {α : Type} (sep : List α) : List (List α) → List α
  | [] => []
  | [l] => l
  | l :: ls => l ++ sep ++ joinSep sep ls

/-- Python `str.strip()`: drop leading and trailing whitespace. -/
def pyStrip (l : Str) : Str :=
  (((l.dropWhile isWS).reverse).dropWhile isWS).reverse

/-- `html.escape(s, quote=True)`, character by character.  The source
performs sequential `str.replace` calls with `&` first; since no
replacement output contains a character replaced later, this equals the
per-character expansion. -/
def escChar (c : Char) : Str :=
  if c = '&' then "&amp;".data
  else if c = '<' then "&lt;".data
  else if c = '>' then "&gt;".data
  else if c = '"' then "&quot;".data
  else if c = '\'' then "&#x27;".data
  else [c]

def htmlEscape (l : Str) : Str := (l.map escChar).flatten

/-- `html.unescape`, modelled for the core entities
`&amp; &lt; &gt; &quot; &#x27; &#39;` (Python also accepts the named ones
without a trailing semicolon).  Python resolves the full HTML5 entity
table; the claims only exercise these core entities. -/
def htmlUnescape : Str → Str
  | [] => []
  | c :: t =>
    if c = '&' then
      match t with
      | 'a' :: 'm' :: 'p' :: ';' :: r => '&' :: htmlUnescape r
      | 'a' :: 'm' :: 'p' :: r => '&' :: htmlUnescape r
      | 'l' :: 't' :: ';' :: r => '<' :: htmlUnescape r
      | 'l' :: 't' :: r => '<' :: htmlUnescape r
      | 'g' :: 't' :: ';' :: r => '>' :: htmlUnescape r
      | 'g' :: 't' :: r => '>' :: htmlUnescape r
      | 'q' :: 'u' :: 'o' :: 't' :: ';' :: r => '"' :: htmlUnescape r
      | 'q' :: 'u' :: 'o' :: 't' :: r => '"' :: htmlUnescape r
      | '#' :: 'x' :: '2' :: '7' :: ';' :: r => '\'' :: htmlUnescape r
      | '#' :: '3' :: '9' :: ';' :: r => '\'' :: htmlUnescape r
      | r => '&' :: htmlUnescape r
    else c :: htmlUnescape t

/-- `text.replace('\r\n', '\n').replace('\r', '\n')`. -/
def normNl : Str → Str
  | [] => []
  | [c] => if c = '\r' then ['\n'] else [c]
  | c :: d :: t =>
    if c = '\r' then
      if d = '\n' then '\n' :: normNl t else '\n' :: normNl (d :: t)
    else c :: normNl (d :: t)

/-- `re.sub(r'\n\x7b3,\x7d', '\n\n', text)`: every maximal run of three or
more newlines becomes exactly two.  `k` counts the newlines immediately
before the cursor, capped at 2. -/
def collapse3Aux : Nat → Str → Str
  | _, [] => []
  | k, c :: t =>
    if c = '\n' then
      if 2 ≤ k then collapse3Aux k t else '\n' :: collapse3Aux (k + 1) t
    else c :: collapse3Aux 0 t

def collapse3 (l : Str) : Str := collapse3Aux 0 l

/-- The `prev_empty` loop of `clean_text`: drop every empty line that
immediately follows another empty line. -/
def collapseEmptyAux : Bool → List Str → List Str
  | _, [] => []
  | prevEmpty, l :: rest =>
    if l = [] then
      if prevEmpty then collapseEmptyAux true rest
      else [] :: collapseEmptyAux true rest
    else l :: collapseEmptyAux false rest

def collapseEmpty (ls : List Str) : List Str := collapseEmptyAux false ls

/-- `clean_text` of `src/app.py`: entity unescaping, newline unification,
newline-run collapsing, per-line stripping (an all-whitespace line is kept
as the empty separator line), and removal of adjacent empty lines. -/
def clean_text (text : Str) : Str :=
  let t3 := collapse3 (normNl (htmlUnescape text))
  joinSep ['\n'] (collapseEmpty ((splitOnChar '\n' t3).map pyStrip))

/-- Python `text.split('\n\n')`: leftmost, non-overlapping occurrences of
the two-character separator. -/
def splitNN : Str → List Str
  | [] => [[]]
  | [c] => [[c]]
  | c :: d :: t =>
    if c = '\n' ∧ d = '\n' then [] :: splitNN t
    else
      match splitNN (d :: t) with
      | [] => [[c]]
      | p :: ps => (c :: p) :: ps

/-- Python `str.split()` with no argument: whitespace-delimited tokens.
`cur` is the token accumulated so far. -/
def pyWordsAux (cur : Str) : Str → List Str
  | [] => if cur = [] then [] else [cur]
  | c :: t =>
    if isWS c then
      if cur = [] then pyWordsAux [] t else cur :: pyWordsAux [] t
    else pyWordsAux (cur ++ [c]) t

def pyWords (l : Str) : List Str := pyWordsAux [] l

/-- The greedy re-wrap loop of `process_paragraphs`: `cur` holds the
words of the line being accumulated (`current_line`), `len` the running
`current_length` counter exactly as in the source. -/
def wrapLoop (limit : Nat) : List Str → List Str → Nat → List Str
  | [], cur, _ => if cur = [] then [] else [joinSep [' '] cur]
  | w :: ws, cur, len =>
    if len + w.length + 1 ≤ limit then wrapLoop limit ws (cur ++ [w]) (len + w.length + 1)
    else if cur = [] then wrapLoop limit ws [w] w.length
    else joinSep [' '] cur :: wrapLoop limit ws [w] w.length

/-- The per-paragraph body of `process_paragraphs`: a paragraph that is a
single line longer than `minChars * 2` is greedily re-wrapped; any other
paragraph is re-joined unchanged. -/
def processPara (minChars : Nat) (para : Str) : Str :=
  match splitOnChar '\n' para with
  | [l] =>
    if minChars * 2 < l.length then
      joinSep ['\n'] (wrapLoop (minChars * 2) (pyWords l) [] 0)
    else joinSep ['\n'] [l]
  | ls => joinSep ['\n'] ls

/-- `process_paragraphs` of `src/app.py` (`min_chars_per_line` is 30 at
the call site): split on blank-line separators, drop paragraphs that
strip to nothing, process each remaining paragraph, re-join. -/
def process_paragraphs (minChars : Nat) (text : Str) : Str :=
  joinSep ['\n', '\n']
    (((splitNN text).filter (fun p => pyStrip p != [])).map (processPara minChars))

/-- The normalisation pipeline exactly as applied by `build_single_epub`:
`clean_text` followed by `process_paragraphs` with the default
`min_chars_per_line = 30` (spec §4.2 `normalize`). -/
def normalizeText (text : Str) : Str := process_paragraphs 30 (clean_text text)

/-- `Path(filename).stem` (POSIX rules): the part of the final path
component before its last suffix; a leading dot or a dot in last
position does not start a suffix. -/
def pathStem (filename : Str) : Str :=
  let name := (splitOnChar '/' filename).getLastD []
  match ((List.range name.length).filter (fun i => name.getD i ' ' == '.')).getLast? with
  | some i => if 0 < i ∧ i < name.length - 1 then name.take i else name
  | none => name

/-- Python `name.split(sep, 1)` restricted to the case where `sep`
occurs (`none` when it does not, which is also the `sep in name` test). -/
def splitFirst (sep : Str) : Str → Option (Str × Str)
  | [] => none
  | c :: t =>
    if sep.isPrefixOf (c :: t) then some ([], (c :: t).drop sep.length)
    else
      match splitFirst sep t with
      | some (a, b) => some (c :: a, b)
      | none => none

/-- `b - a` characters of `s` starting at `a` contain no newline
(`.` in a Python regex does not match `\n`). -/
def noNlRange (s : Str) (a b : Nat) : Bool :=
  ((s.drop a).take (b - a)).all (fun c => c != '\n')

/-- Candidate positions of the closing `)` for `re.search(r"(.+)\((.+)\)")`
once the `(` position `i` is fixed: `j ≥ i + 2`, `s[j] = ')'`, and the
second group `s[i+1:j]` newline-free. -/
def jCands (s : Str) (i : Nat) : List Nat :=
  (List.range s.length).filter
    (fun j => decide (i + 2 ≤ j) && (s.getD j ' ' == ')') && noNlRange s (i + 1) j)

/-- Candidate positions of `(` for a match starting at `p`: `i > p`,
`s[i] = '('`, first group `s[p:i]` newline-free, and some closing `)`
exists. -/
def iCands (s : Str) (p : Nat) : List Nat :=
  (List.range s.length).filter
    (fun i => decide (p < i) && (s.getD i ' ' == '(') && noNlRange s p i && !(jCands s i).isEmpty)

/-- `re.search(r"(.+)\((.+)\)", s)` group extraction with Python's
leftmost-then-greedy semantics: the match starts at the first feasible
position; both `(.+)` groups are greedy, so the last feasible `(` and
then the last feasible `)` are used. -/
def parenSearch (s : Str) : Option (Str × Str) :=
  ((List.range s.length).filterMap (fun p =>
    match (iCands s p).getLast? with
    | some i =>
      match (jCands s i).getLast? with
      | some j => some ((s.drop p).take (i - p), (s.drop (i + 1)).take (j - (i + 1)))
      | none => none
    | none => none)).head?

/-- The author sentinel `"미상"` ("unknown"). -/
def UNKNOWN_AUTHOR : Str := "미상".data

/-- The character class of `re.sub(r'[\\/*?:"<>|]', "", title)`. -/
def forbiddenChars : List Char := ['\\', '/', '*', '?', ':', '"', '<', '>', '|']

/-- The rule cascade of `extract_metadata` evaluated on the
extension-stripped stem. -/
def extractFromStem (name : Str) : Str × Str × Str :=
  let ta :=
    match splitFirst (' ' :: '-' :: [' ']) name with
    | some (a, b) => (pyStrip a, pyStrip b)
    | none =>
      match splitFirst ['_'] name with
      | some (a, b) => (pyStrip a, pyStrip b)
      | none =>
        if name.contains '(' && (name.getLast? == some ')') then
          match parenSearch name with
          | some (a, b) => (pyStrip a, pyStrip b)
          | none => (name, UNKNOWN_AUTHOR)
        else (name, UNKNOWN_AUTHOR)
  (ta.1, ta.2, ta.1.filter (fun c => !forbiddenChars.contains c))

/-- `extract_metadata` of `src/app.py`: `(title, author, safe_title)`
from the filename. -/
def extract_metadata (filename : Str) : Str × Str × Str :=
  extractFromStem (pathStem filename)

/-- One optional whitespace character (`\s?`; greedy, and deterministic
here because whatever must follow is never whitespace). -/
def eatWSopt (l : Str) : Str :=
  match l with
  | c :: t => if isWS c then t else c :: t
  | [] => []

/-- `\d+`: requires at least one digit, returns the rest. -/
def eatDigits1 (l : Str) : Option Str :=
  if l.takeWhile Char.isDigit = [] then none else some (l.dropWhile Char.isDigit)

/-- Alternative `제\s?\d+\s?[화장편]` of the chapter-heading pattern. -/
def altJe (l : Str) : Bool :=
  match l with
  | '제' :: t =>
    match eatDigits1 (eatWSopt t) with
    | some r =>
      match eatWSopt r with
      | c :: _ => c == '화' || c == '장' || c == '편'
      | [] => false
    | none => false
  | _ => false

/-- Alternative `Chapter\s+\d+`. -/
def altChapter (l : Str) : Bool :=
  match l with
  | 'C' :: 'h' :: 'a' :: 'p' :: 't' :: 'e' :: 'r' :: t =>
    match t with
    | c :: _ => isWS c && ((t.dropWhile isWS).takeWhile Char.isDigit != [])
    | [] => false
  | _ => false

/-- Alternative `\d+\.`. -/
def altNumDot (l : Str) : Bool :=
  match eatDigits1 l with
  | some r => r.head? == some '.'
  | none => false

/-- Alternative `제\s*\d+\s*장`. -/
def altJeJang (l : Str) : Bool :=
  match l with
  | '제' :: t =>
    match eatDigits1 (t.dropWhile isWS) with
    | some r => (r.dropWhile isWS).head? == some '장'
    | none => false
  | _ => false

/-- `chapter_pattern.match(line_stripped)` of `detect_chapters`: the
anchored regex `^(제\s?\d+\s?[화장편]|Chapter\s+\d+|\d+\.|제\s*\d+\s*장)`
matches at the start of the line. -/
def chapterMatch (l : Str) : Bool :=
  altJe l || altChapter l || altNumDot l || altJeJang l

/-- The initial chapter name `"시작"` ("start"). -/
def START_CHAPTER : Str := "시작".data

/-- The fallback chapter name `"본문"` ("body"). -/
def BODY_CHAPTER : Str := "본문".data

/-- The escaped non-blank lines `[html.escape(l.strip()) for l in lines if l.strip()]`. -/
def escapedNonBlank (lines : List Str) : List Str :=
  lines.filterMap (fun l => if pyStrip l = [] then none else some (htmlEscape (pyStrip l)))

/-- The scanning loop of `detect_chapters`: `cur` is `current_chapter`,
`curLines` is `current_lines`, `chapters` the accumulator; the final
flush of a non-empty `current_lines` is performed at the end. -/
def dcLoop : List Str → Str → List Str → List (Str × List Str) → List (Str × List Str)
  | [], cur, curLines, chapters =>
    if curLines = [] then chapters else chapters ++ [(cur, curLines)]
  | l :: rest, cur, curLines, chapters =>
    if pyStrip l = [] then dcLoop rest cur curLines chapters
    else if chapterMatch (pyStrip l) then
      dcLoop rest (pyStrip l) []
        (if curLines = [] then chapters else chapters ++ [(cur, curLines)])
    else dcLoop rest cur (curLines ++ [htmlEscape (pyStrip l)]) chapters

/-- `detect_chapters` of `src/app.py`. -/
def detect_chapters (lines : List Str) : List (Str × List Str) :=
  if dcLoop lines START_CHAPTER [] [] = [] then [(BODY_CHAPTER, escapedNonBlank lines)]
  else dcLoop lines START_CHAPTER [] []

/-- A UTF-8 continuation byte. -/
def utf8Cont (b : Nat) : Bool := 128 ≤ b && b ≤ 191

/-- `bytes.decode('utf-8', errors='replace')`: total UTF-8 decoding, with
U+FFFD substituted for invalid data.  The accepted sequences are exactly
the valid UTF-8 encodings (no overlongs, no surrogates, max U+10FFFF);
on invalid input one replacement character is emitted per rejected
leading byte, a harmless simplification of CPython's maximal-subpart
policy that no claim depends on. -/
def utf8DecodeReplace : List Nat → Str
  | [] => []
  | b :: t =>
    if b ≤ 127 then Char.ofNat b :: utf8DecodeReplace t
    else if 194 ≤ b && b ≤ 223 then
      match t with
      | b1 :: r =>
        if utf8Cont b1 then Char.ofNat ((b - 192) * 64 + (b1 - 128)) :: utf8DecodeReplace r
        else '�' :: utf8DecodeReplace (b1 :: r)
      | [] => ['�']
    else if 224 ≤ b && b ≤ 239 then
      match t with
      | b1 :: b2 :: r =>
        if (if b = 224 then 160 ≤ b1 && b1 ≤ 191
            else if b = 237 then 128 ≤ b1 && b1 ≤ 159
            else utf8Cont b1) && utf8Cont b2 then
          Char.ofNat ((b - 224) * 4096 + (b1 - 128) * 64 + (b2 - 128)) :: utf8DecodeReplace r
        else '�' :: utf8DecodeReplace (b1 :: b2 :: r)
      | short => '�' :: utf8DecodeReplace short
    else if 240 ≤ b && b ≤ 244 then
      match t with
      | b1 :: b2 :: b3 :: r =>
        if (if b = 240 then 144 ≤ b1 && b1 ≤ 191
            else if b = 244 then 128 ≤ b1 && b1 ≤ 143
            else utf8Cont b1) && utf8Cont b2 && utf8Cont b3 then
          Char.ofNat ((b - 240) * 262144 + (b1 - 128) * 4096 + (b2 - 128) * 64 + (b3 - 128))
            :: utf8DecodeReplace r
        else '�' :: utf8DecodeReplace (b1 :: b2 :: b3 :: r)
      | short => '�' :: utf8DecodeReplace short
    else '�' :: utf8DecodeReplace t
termination_by l => l.length
decreasing_by all_goals simp_arith [List.length]

/-- The fixed fallback trial list of `detect_encoding`. -/
def ENCODINGS : List String := [r"utf-8", r"cp949", r"euc-kr", r"latin-1", r"cp1252"]

/-- One decoding attempt `file_content.decode(encoding, errors='replace')`
inside the `try`/`except` of the fallback loop.  UTF-8 with
`errors='replace'` never raises and is modelled concretely; the other
codecs are the abstract parameter `other` (`none` models a raise). -/
def tryDecode (other : String → List Nat → Option Str) (enc : String) (b : List Nat) :
    Option Str :=
  if enc = r"utf-8" then some (utf8DecodeReplace b) else other enc b

/-- The `for encoding in [...]` fallback loop of `detect_encoding`:
return the first successful decode together with its encoding label. -/
def fallbackLoop (other : String → List Nat → Option Str) (b : List Nat) :
    List String → Option (String × Str)
  | [] => none
  | e :: rest =>
    match tryDecode other e b with
    | some t => some (e, t)
    | none => fallbackLoop other b rest

/-- `detect_encoding` of `src/app.py`.  `detected` models the
`charset_normalizer.from_bytes(...).best()` branch: `some (enc, text)`
when it produced a result with a truthy encoding, `none` when it
returned nothing, had no encoding, or raised. -/
def detect_encoding (detected : Option (String × Str))
    (other : String → List Nat → Option Str) (b : List Nat) : String × Str :=
  match detected with
  | some r => r
  | none =>
    match fallbackLoop other b ENCODINGS with
    | some r => r
    | none => (r"unknown", utf8DecodeReplace b)

/-- The single font table entry (`FONTS["리디바탕"]`, also the `.get`
fallback, hence the font used by every conversion). -/
def fontFile : Str := "RIDIBatang.otf".data

def fontCssName : Str := "RIDIBatang".data

def fontFamily : Str := "'RIDIBatang', serif".data

/-- An entry written into the EPUB ZIP archive: its name, its content
(font and cover bytes are opaque `Str` parameters), and whether it was
written with `ZIP_STORED` (uncompressed) rather than the archive default
`ZIP_DEFLATED`. -/
structure ZEntry where
  name : Str
  content : Str
  stored : Bool
deriving DecidableEq

def MIMETYPE : Str := "application/epub+zip".data

def mimetypeName : Str := "mimetype".data

def containerName : Str := "META-INF/container.xml".data

def cssName : Str := "OEBPS/style.css".data

def fontEntryName : Str := "OEBPS/fonts/".data ++ fontFile

def coverJpgName : Str := "OEBPS/cover.jpg".data

def coverXhtmlName : Str := "OEBPS/cover.xhtml".data

def ncxName : Str := "OEBPS/toc.ncx".data

def opfName : Str := "OEBPS/content.opf".data

/-- Python `str(i)` (decimal). -/
def natStr (i : Nat) : Str := (Nat.repr i).data

/-- `f"\x7bi:04d\x7d"`: the decimal digits left-padded with zeros to at
least four characters. -/
def pad4 (i : Nat) : Str := List.replicate (4 - (Nat.repr i).length) '0' ++ natStr i

def chapterFname (i : Nat) : Str := "chapter_".data ++ pad4 i ++ ".xhtml".data

def chapterEntryName (i : Nat) : Str := "OEBPS/".data ++ chapterFname i

/-- The `container.xml` literal of `build_single_epub`. -/
def containerXml : Str :=
  ("<?xml version=\"1.0\" encoding=\"UTF-8\"?>\n<container version=\"1.0\" xmlns=\"urn:oasis:names:tc:opendocument:xmlns:container\">\n    <rootfiles>\n        <rootfile full-path=\"OEBPS/content.opf\" media-type=\"application/oebps-package+xml\"/>\n    </rootfiles>\n</container>").data

/-- The `css_content` f-string (the font values are the fixed
`리디바탕` entry). -/
def cssContent : Str :=
  ("\n        @font-face \x7b\n            font-family: '").data ++ fontCssName ++
  ("';\n            src: url('fonts/").data ++ fontFile ++
  ("');\n        \x7d\n        body \x7b \n            font-family: ").data ++ fontFamily ++
  (";\n            line-height: 1.8;\n            margin: 5% 8%;\n            text-align: justify;\n            word-break: break-all;\n        \x7d\n        p \x7b\n            margin-top: 0;\n            margin-bottom: 1.5em;\n            text-indent: 1em;\n        \x7d\n        h1, h2 \x7b\n            text-align: center;\n            font-weight: bold;\n        \x7d\n        h1 \x7b\n            font-size: 1.8em;\n            margin-bottom: 1em;\n        \x7d\n        h2 \x7b\n            font-size: 1.4em;\n            margin: 1.5em 0 1em 0;\n        \x7d\n        .author \x7b\n            text-align: center;\n            font-size: 1.2em;\n            margin-bottom: 2em;\n            color: #666;\n        \x7d\n        ").data

/-- The `cover_xhtml` literal. -/
def coverXhtml : Str :=
  ("<?xml version=\"1.0\" encoding=\"utf-8\"?>\n<!DOCTYPE html PUBLIC \"-//W3C//DTD XHTML 1.1//EN\" \"http://www.w3.org/TR/xhtml11/DTD/xhtml11.dtd\">\n<html xmlns=\"http://www.w3.org/1999/xhtml\">\n<head>\n    <title>표지</title>\n    <style type=\"text/css\">\n        body \x7b margin:0; padding:0; text-align:center; background:#f5f5f5; \x7d\n        img \x7b max-width:100%; height:auto; box-shadow: 0 4px 8px rgba(0,0,0,0.1); \x7d\n        .cover-container \x7b padding:20px; \x7d\n    </style>\n</head>\n<body>\n    <div class=\"cover-container\">\n        <img src=\"cover.jpg\" alt=\"Cover\" />\n    </div>\n</body>\n</html>").data

/-- The chapter-0 header: `<h1>` title, plus the author line when the
author is not the `"미상"` sentinel. -/
def chapterHeader (title author : Str) (i : Nat) : Str :=
  if i = 0 then
    "<h1>".data ++ htmlEscape title ++ "</h1>".data ++
    (if author ≠ UNKNOWN_AUTHOR then
      ("<p class=\"author\">").data ++ htmlEscape author ++ "</p>".data
    else [])
  else []

/-- The chapter-document template up to (and including) `<title>`. -/
def xhtmlPre : Str :=
  ("<?xml version=\"1.0\" encoding=\"utf-8\"?>\n<!DOCTYPE html PUBLIC \"-//W3C//DTD XHTML 1.1//EN\" \"http://www.w3.org/TR/xhtml11/DTD/xhtml11.dtd\">\n<html xmlns=\"http://www.w3.org/1999/xhtml\">\n<head>\n    <link rel=\"stylesheet\" type=\"text/css\" href=\"style.css\"/>\n    <title>").data

/-- From `</title>` up to the `header` insertion point. -/
def xhtmlMid : Str := ("</title>\n</head>\n<body>\n    ").data

/-- Between the header and the escaped chapter title (`<h2>`). -/
def xhtmlH2open : Str := ("\n    <h2>").data

/-- After the escaped chapter title (`</h2>`). -/
def xhtmlH2close : Str := ("</h2>\n    ").data

/-- The closing part of the chapter document. -/
def xhtmlPost : Str := ("\n</body>\n</html>").data

/-- The per-chapter XHTML document (the `xhtml` f-string). -/
def chapterXhtml (title author : Str) (i : Nat) (chTitle : Str) (chLines : List Str) : Str :=
  xhtmlPre ++ htmlEscape chTitle ++ xhtmlMid ++ chapterHeader title author i
  ++ xhtmlH2open ++ htmlEscape chTitle ++ xhtmlH2close
  ++ (chLines.map (fun line => "<p>".data ++ line ++ "</p>".data)).flatten
  ++ xhtmlPost

def npA : Str := ("\n        <navPoint id=\"nav").data

def npB : Str := ("\" playOrder=\"").data

def npC : Str := ("\">\n            <navLabel>\n                <text>").data

def npD : Str := ("</text>\n            </navLabel>\n            <content src=\"").data

def npE : Str := ("\"/>\n        </navPoint>").data

/-- One `<navPoint>` block of the NCX (the `ncx_navpoints` increment). -/
def navPointStr (i : Nat) (chTitle : Str) : Str :=
  npA ++ natStr i ++ npB ++ natStr (i + 1) ++ npC ++ htmlEscape chTitle
  ++ npD ++ chapterFname i ++ npE

/-- The accumulated `ncx_navpoints` as the list of its increments. -/
def navPoints (chapters : List (Str × List Str)) : List Str :=
  chapters.enum.map (fun p => navPointStr p.1 p.2.1)

/-- The `toc.ncx` document. -/
def ncxDoc (title bookId : Str) (chapters : List (Str × List Str)) : Str :=
  ("<?xml version=\"1.0\" encoding=\"UTF-8\"?>\n<ncx xmlns=\"http://www.daisy.org/z3986/2005/ncx/\" version=\"2005-1\">\n    <head>\n        <meta name=\"dtb:uid\" content=\"").data
  ++ bookId ++
  ("\"/>\n    </head>\n    <docTitle>\n        <text>").data ++ htmlEscape title ++
  ("</text>\n    </docTitle>\n    <navMap>\n        ").data
  ++ (navPoints chapters).flatten ++
  ("\n    </navMap>\n</ncx>").data

/-- One chapter `<item>` of the manifest (the `manifest_items` increment). -/
def manifestItemStr (i : Nat) : Str :=
  ("\n        <item id=\"chap").data ++ natStr i ++
  ("\" href=\"").data ++ chapterFname i ++
  ("\" media-type=\"application/xhtml+xml\"/>").data

/-- The accumulated `manifest_items` as the list of its increments. -/
def manifestItems (n : Nat) : List Str :=
  (List.range n).map manifestItemStr

/-- One chapter `<itemref>` of the spine (the `spine_items` increment). -/
def spineRefStr (i : Nat) : Str :=
  ("\n        <itemref idref=\"chap").data ++ natStr i ++ ("\"/>").data

/-- The accumulated `spine_items`: the cover `<itemref>` (when a cover
is present) followed by one `<itemref>` per chapter. -/
def spineItems (hasCover : Bool) (n : Nat) : List Str :=
  (if hasCover then [("<itemref idref=\"cover-xhtml\"/>").data] else [])
  ++ (List.range n).map spineRefStr

/-- The `cover_manifest` fragment. -/
def coverManifestStr : Str :=
  ("\n        <item id=\"cover-img\" href=\"cover.jpg\" media-type=\"image/jpeg\"/>\n        <item id=\"cover-xhtml\" href=\"cover.xhtml\" media-type=\"application/xhtml+xml\"/>").data

/-- The `cover_meta` fragment. -/
def coverMetaStr : Str := ("<meta name=\"cover\" content=\"cover-img\"/>").data

/-- The `font_item` fragment. -/
def fontItemStr : Str :=
  ("\n        <item id=\"font\" href=\"fonts/").data ++ fontFile ++
  ("\" media-type=\"application/vnd.ms-opentype\"/>").data

/-- The `content.opf` document. -/
def opfDoc (title author bookId : Str) (hasCover : Bool) (chapters : List (Str × List Str)) :
    Str :=
  ("<?xml version=\"1.0\" encoding=\"utf-8\"?>\n<package version=\"2.0\" xmlns=\"http://www.idpf.org/2007/opf\" unique-identifier=\"uid\">\n    <metadata xmlns:dc=\"http://purl.org/dc/elements/1.1/\">\n        <dc:title>").data
  ++ htmlEscape title ++
  ("</dc:title>\n        <dc:creator>").data ++ htmlEscape author ++
  ("</dc:creator>\n        <dc:language>ko</dc:language>\n        <dc:identifier id=\"uid\">").data
  ++ bookId ++
  ("</dc:identifier>\n        ").data
  ++ (if hasCover then coverMetaStr else []) ++
  ("\n    </metadata>\n    <manifest>\n        <item id=\"ncx\" href=\"toc.ncx\" media-type=\"application/x-dtbncx+xml\"/>\n        <item id=\"css\" href=\"style.css\" media-type=\"text/css\"/>").data
  ++ (if hasCover then coverManifestStr else [])
  ++ (manifestItems chapters.length).flatten
  ++ fontItemStr ++
  ("\n    </manifest>\n    <spine toc=\"ncx\">\n        ").data
  ++ (spineItems hasCover chapters.length).flatten ++
  ("\n    </spine>\n</package>").data

/-- The ZIP entries written by `build_single_epub`, in writing order:
`mimetype` (stored) first, then container, font, stylesheet, the
optional cover pair, the chapter documents, the NCX and the OPF. -/
def buildEntries (title author : Str) (chapters : List (Str × List Str))
    (coverImage : Option Str) (fontBytes bookId : Str) : List ZEntry :=
  ⟨mimetypeName, MIMETYPE, true⟩ ::
  ⟨containerName, containerXml, false⟩ ::
  ⟨fontEntryName, fontBytes, false⟩ ::
  ⟨cssName, cssContent, false⟩ ::
  ((match coverImage with
    | some cv => [⟨coverJpgName, cv, false⟩, ⟨coverXhtmlName, coverXhtml, false⟩]
    | none => [])
  ++ chapters.enum.map (fun p =>
      ⟨chapterEntryName p.1, chapterXhtml title author p.1 p.2.1 p.2.2, false⟩)
  ++ [⟨ncxName, ncxDoc title bookId chapters, false⟩,
      ⟨opfName, opfDoc title author bookId coverImage.isSome chapters, false⟩])

/-- Python `str.splitlines()` restricted to `\n` line breaks (the only
line break left in text that has passed `clean_text`): like
`split('\n')` but without the final empty piece. -/
def pySplitlines (s : Str) : List Str :=
  let ls := splitOnChar '\n' s
  if ls.getLastD [] = [] then ls.dropLast else ls

/-- `build_single_epub` of `src/app.py`, success path, returning
`(safe_title, archive entries)`.  External effects are parameters:
`detected`/`other` model charset detection and the non-UTF-8 codecs,
`fontBytes` the font file read from disk, `bookId` the `uuid4` string.
The `try`/`except` failure mode (any exception, e.g. a missing font
file) is modelled at the orchestrator level. -/
def epubChapters (useChapterSplit : Bool) (lines : List Str) : List (Str × List Str) :=
  if useChapterSplit then detect_chapters lines
  else [(BODY_CHAPTER, escapedNonBlank lines)]

def build_single_epub (fileName : Str) (fileContent : List Nat) (coverImage : Option Str)
    (useChapterSplit : Bool) (detected : Option (String × Str))
    (other : String → List Nat → Option Str) (fontBytes bookId : Str) : Str × List ZEntry :=
  let md := extract_metadata fileName
  let text := process_paragraphs 30 (clean_text (detect_encoding detected other fileContent).2)
  let chapters := epubChapters useChapterSplit (pySplitlines text)
  (md.2.2, buildEntries md.1 md.2.1 chapters coverImage fontBytes bookId)

/-- The per-file cover lookup of `convert_all_files`:
`cover_images[idx]` when `cover_images` is non-empty and `idx` is in
range, else `None` (an out-of-range or absent list yields no cover). -/
def coverAt (covers : List (Option Str)) (idx : Nat) : Option Str :=
  if idx < covers.length then covers.getD idx none else none

/-- The loop of `convert_all_files` over the enumerated file list:
`build` models `build_single_epub` including its `try`/`except` (`none`
is a caught conversion failure); failures are skipped, successes are
appended in order. -/
def caLoop (build : Str → List Nat → Option Str → Option (Str × List ZEntry))
    (covers : List (Option Str)) : Nat → List (Str × List Nat) → List (Str × List ZEntry)
  | _, [] => []
  | idx, f :: rest =>
    match build f.1 f.2 (coverAt covers idx) with
    | some r => r :: caLoop build covers (idx + 1) rest
    | none => caLoop build covers (idx + 1) rest

/-- `convert_all_files` of `src/app.py` (progress reporting is UI-only
and elided). -/
def convert_all_files (build : Str → List Nat → Option Str → Option (Str × List ZEntry))
    (filesData : List (Str × List Nat)) (coverImages : List (Option Str)) :
    List (Str × List ZEntry) :=
  caLoop build coverImages 0 filesData

/-- `build(i) = some r` for every file of a block, collected in order:
the premise shape used to state batch isolation. -/
def buildResults (build : Str → List Nat → Option Str → Option (Str × List ZEntry))
    (covers : List (Option Str)) : Nat → List (Str × List Nat) → List (Option (Str × List ZEntry))
  | _, [] => []
  | idx, f :: rest => build f.1 f.2 (coverAt covers idx) :: buildResults build covers (idx + 1) rest

/-- An archive entry name of the form `OEBPS/chapter_*.xhtml`. -/
def isChapterEntry (nm : Str) : Bool :=
  ((r"OEBPS/chapter_").data).isPrefixOf nm && ((r".xhtml").data).isSuffixOf nm

/-- `p` occurs as a contiguous substring of `l`. -/
def occursIn (p l : Str) : Prop := ∃ u v, l = u ++ p ++ v

def c8line : Str := "a<b".data

def w61 : Str := List.replicate 61 'a'

def w2par : Str := 'a' :: '\n' :: ['b']

/-- The string contains two adjacent newlines (the paragraph separator). -/
def hasNN : Str → Bool
  | c :: d :: t => (c == '\n' && d == '\n') || hasNN (d :: t)
  | _ => false

/-- The string contains three adjacent newlines. -/
def hasNNN : Str → Bool
  | a :: b :: c :: t => (a == '\n' && b == '\n' && c == '\n') || hasNNN (b :: c :: t)
  | _ => false

theorem joinSep_cons {α : Type} (sep : List α) (l : List α) (ls : List (List α)) (h : ls ≠ []) :
    joinSep sep (l :: ls) = l ++ sep ++ joinSep sep ls := by
  cases ls with
  | nil => exact absurd rfl h
  | cons a as => rfl

theorem escapedNonBlank_cons (l : Str) (rest : List Str) :
    escapedNonBlank (l :: rest) =
      if pyStrip l = [] then escapedNonBlank rest
      else htmlEscape (pyStrip l) :: escapedNonBlank rest := by
  by_cases h : pyStrip l = [] <;> simp [escapedNonBlank, List.filterMap_cons, h]

/-- C5: The metadata extractor follows the documented rule precedence on
the extension-stripped stem with trimmed parts, and `safe_title` deletes
(rather than replaces) each of the reserved characters: the five
concrete cases of the claim. -/
theorem extract_metadata_precedence :
    extract_metadata (r"Alpha - Beta.txt").data
        = ((r"Alpha").data, (r"Beta").data, (r"Alpha").data) ∧
    extract_metadata (r"Alpha_Beta.txt").data
        = ((r"Alpha").data, (r"Beta").data, (r"Alpha").data) ∧
    extract_metadata (r"Alpha(Beta).txt").data
        = ((r"Alpha").data, (r"Beta").data, (r"Alpha").data) ∧
    extract_metadata (r"Alpha.txt").data
        = ((r"Alpha").data, UNKNOWN_AUTHOR, (r"Alpha").data) ∧
    (extractFromStem (r"A/B*C").data).2.2 = (r"ABC").data := by
  decide

/-- C10: the encoding resolver never reports the label `"unknown"`: for
every byte buffer, detector outcome and non-UTF-8 codec behaviour, the
result is the detected pair, or else the first fallback entry (lossy
UTF-8) succeeds, so the declared final `'unknown'` branch is dead code. -/
theorem encoding_label_never_unknown (detected : Option (String × Str))
    (other : String → List Nat → Option Str) (b : List Nat) :
    detect_encoding detected other b =
      match detected with
      | some r => r
      | none => (r"utf-8", utf8DecodeReplace b) := by
  cases detected with
  | some r => rfl
  | none => simp [detect_encoding, fallbackLoop, ENCODINGS, tryDecode]

/-- C4: the encoding resolver is a total function on byte buffers: for
every buffer (empty and invalid UTF-8 included) and every
detector/codec behaviour it returns an `(encoding_label, text)` pair;
whenever statistical detection yields nothing, the text is the lossy
UTF-8 decode of the buffer — no input is an error. -/
theorem detect_encoding_total (detected : Option (String × Str))
    (other : String → List Nat → Option Str) (b : List Nat) :
    (∃ enc text, detect_encoding detected other b = (enc, text)) ∧
    (detected = none → (detect_encoding detected other b).2 = utf8DecodeReplace b) := by
  refine ⟨⟨_, _, rfl⟩, fun h => ?_⟩
  subst h
  simp [detect_encoding, fallbackLoop, ENCODINGS, tryDecode]

theorem dcLoop_no_match (lines : List Str) :
    ∀ cur curLines chapters,
      (∀ l ∈ lines, chapterMatch (pyStrip l) = false) →
      dcLoop lines cur curLines chapters =
        if curLines ++ escapedNonBlank lines = [] then chapters
        else chapters ++ [(cur, curLines ++ escapedNonBlank lines)] := by
  induction lines with
  | nil =>
    intro cur curLines chapters _
    simp [dcLoop, escapedNonBlank]
  | cons l rest ih =>
    intro cur curLines chapters hm
    have hml : chapterMatch (pyStrip l) = false := hm l (List.mem_cons_self l rest)
    have hmr : ∀ x ∈ rest, chapterMatch (pyStrip x) = false :=
      fun x hx => hm x (List.mem_cons_of_mem l hx)
    by_cases hs : pyStrip l = []
    · rw [show dcLoop (l :: rest) cur curLines chapters
          = dcLoop rest cur curLines chapters by simp [dcLoop, hs]]
      rw [ih cur curLines chapters hmr, escapedNonBlank_cons]
      simp [hs]
    · rw [show dcLoop (l :: rest) cur curLines chapters
          = dcLoop rest cur (curLines ++ [htmlEscape (pyStrip l)]) chapters by
            simp [dcLoop, hs, hml]]
      rw [ih cur (curLines ++ [htmlEscape (pyStrip l)]) chapters hmr, escapedNonBlank_cons]
      simp [hs]

/-- C1 counterexample: the single line `"hello"` is non-blank and
matches no heading pattern, yet the one chapter produced by the
segmenter with splitting enabled is named `"시작"`, not `"본문"` as the
claim states. -/
theorem chapter_fallback_name_counterexample :
    detect_chapters [(r"hello").data] = [(START_CHAPTER, [(r"hello").data])] ∧
    START_CHAPTER ≠ BODY_CHAPTER ∧
    (∀ c ∈ detect_chapters [(r"hello").data], c.1 ≠ BODY_CHAPTER) := by
  decide

/-- C1 (amended): for every line sequence in which no line matches a
heading pattern and at least one line is non-blank, splitting-enabled
segmentation returns exactly one chapter whose body is every non-blank
line, HTML-escaped, in order — but its heading is `"시작"` (the initial
chapter name); `"본문"` is used only when every line is blank, or when
splitting is disabled. -/
theorem detect_chapters_no_heading (lines : List Str)
    (hm : ∀ l ∈ lines, chapterMatch (pyStrip l) = false)
    (hb : ∃ l ∈ lines, pyStrip l ≠ []) :
    detect_chapters lines = [(START_CHAPTER, escapedNonBlank lines)] := by
  obtain ⟨l, hl, hne⟩ := hb
  have hnb : escapedNonBlank lines ≠ [] := by
    intro h
    have := List.filterMap_eq_nil_iff.mp h l hl
    simp [hne] at this
  have hloop := dcLoop_no_match lines START_CHAPTER [] [] hm
  simp only [List.nil_append] at hloop
  rw [detect_chapters, hloop]
  simp [hnb]

theorem dcLoop_body_nonempty (lines : List Str) :
    ∀ cur curLines chapters h b,
      (h, b) ∈ dcLoop lines cur curLines chapters →
      (h, b) ∈ chapters ∨ b ≠ [] := by
  induction lines with
  | nil =>
    intro cur curLines chapters h b hmem
    by_cases hc : curLines = []
    · simp [dcLoop, hc] at hmem
      exact Or.inl hmem
    · simp [dcLoop, hc] at hmem
      rcases hmem with hmem | ⟨_, hb⟩
      · exact Or.inl hmem
      · exact Or.inr (hb ▸ hc)
  | cons l rest ih =>
    intro cur curLines chapters h b hmem
    by_cases hs : pyStrip l = []
    · rw [show dcLoop (l :: rest) cur curLines chapters
          = dcLoop rest cur curLines chapters by simp [dcLoop, hs]] at hmem
      exact ih cur curLines chapters h b hmem
    · by_cases hcm : chapterMatch (pyStrip l)
      · rw [show dcLoop (l :: rest) cur curLines chapters
            = dcLoop rest (pyStrip l) []
                (if curLines = [] then chapters else chapters ++ [(cur, curLines)]) by
              simp [dcLoop, hs, hcm]] at hmem
        rcases ih _ _ _ h b hmem with hin | hb
        · by_cases hc : curLines = []
          · simp [hc] at hin
            exact Or.inl hin
          · simp [hc] at hin
            rcases hin with hin | ⟨_, hb⟩
            · exact Or.inl hin
            · exact Or.inr (hb ▸ hc)
        · exact Or.inr hb
      · rw [show dcLoop (l :: rest) cur curLines chapters
            = dcLoop rest cur (curLines ++ [htmlEscape (pyStrip l)]) chapters by
              simp [dcLoop, hs, hcm]] at hmem
        exact ih _ _ _ h b hmem

/-- C2 counterexample: the heading `"1."` matches the pattern and is
followed by no non-blank body line before the next heading `"2."`; the
segmenter output contains no chapter for it at all — the empty-bodied
chapter is dropped, not emitted. -/
theorem empty_chapter_dropped_counterexample :
    detect_chapters [(r"1.").data, (r"2.").data, (r"x").data]
        = [((r"2.").data, [(r"x").data])] ∧
    chapterMatch ((r"1.").data) = true ∧
    (∀ c ∈ detect_chapters [(r"1.").data, (r"2.").data, (r"x").data],
      c.1 ≠ (r"1.").data) := by
  decide

/-- C2 (amended): a matched heading with zero body lines before the next
heading or the end of input never yields a chapter: every chapter in the
segmenter output has a non-empty body, except possibly the `"본문"`
fallback chapter produced when no chapter accumulated any body line. -/
theorem empty_chapters_only_fallback (lines : List Str) (h : Str) (b : List Str)
    (hmem : (h, b) ∈ detect_chapters lines) (hb : b = []) : h = BODY_CHAPTER := by
  by_cases hc : dcLoop lines START_CHAPTER [] [] = []
  · rw [detect_chapters, if_pos hc] at hmem
    simp at hmem
    exact hmem.1
  · rw [detect_chapters, if_neg hc] at hmem
    rcases dcLoop_body_nonempty lines START_CHAPTER [] [] h b hmem with hin | hne
    · exact absurd hin (List.not_mem_nil _)
    · exact absurd hb hne

/-- C2 witness: the amended theorem applied at the concrete all-blank
input `[]`, whose single output chapter is the empty-bodied fallback. -/
theorem empty_chapters_only_fallback_witness :
    ((BODY_CHAPTER, ([] : List Str)) ∈ detect_chapters []) ∧ BODY_CHAPTER = BODY_CHAPTER :=
  ⟨by decide, empty_chapters_only_fallback [] BODY_CHAPTER [] (by decide) rfl⟩

/-- C1 witness: the amended theorem applied at the concrete input
`["hello"]`. -/
theorem detect_chapters_no_heading_witness :
    detect_chapters [(r"hello").data] = [(START_CHAPTER, escapedNonBlank [(r"hello").data])] :=
  detect_chapters_no_heading [(r"hello").data] (by decide) (by decide)

theorem buildResults_length (build : Str → List Nat → Option Str → Option (Str × List ZEntry))
    (covers : List (Option Str)) (files : List (Str × List Nat)) :
    ∀ i, (buildResults build covers i files).length = files.length := by
  induction files with
  | nil => intro i; rfl
  | cons f rest ih => intro i; simp [buildResults, ih (i + 1)]

theorem caLoop_of_results (build : Str → List Nat → Option Str → Option (Str × List ZEntry))
    (covers : List (Option Str)) (as : List (Str × List Nat)) :
    ∀ i (ras : List (Str × List ZEntry)) (rest : List (Str × List Nat)),
      buildResults build covers i as = ras.map some →
      caLoop build covers i (as ++ rest) = ras ++ caLoop build covers (i + as.length) rest := by
  induction as with
  | nil =>
    intro i ras rest hA
    have : ras = [] := by
      cases ras with
      | nil => rfl
      | cons r rs => simp [buildResults] at hA
    subst this
    simp
  | cons f as' ih =>
    intro i ras rest hA
    cases ras with
    | nil =>
      simp [buildResults] at hA
    | cons r rs =>
      simp only [buildResults, List.map_cons] at hA
      have h1 : build f.1 f.2 (coverAt covers i) = some r := (List.cons_eq_cons.mp hA).1
      have h2 : buildResults build covers (i + 1) as' = rs.map some :=
        (List.cons_eq_cons.mp hA).2
      show caLoop build covers i (f :: (as' ++ rest)) = _
      rw [show caLoop build covers i (f :: (as' ++ rest))
          = r :: caLoop build covers (i + 1) (as' ++ rest) by simp [caLoop, h1]]
      rw [ih (i + 1) rs rest h2]
      simp only [List.cons_append, List.length_cons]
      have harith : i + (as'.length + 1) = i + 1 + as'.length := by omega
      rw [harith]

/-- C7: batch isolation: in a batch split as `as ++ [(fn, fc)] ++ bs`
where the conversion of `(fn, fc)` fails (its `build_single_epub` call
raises and is caught, modelled as `none`) while every other document
succeeds with the listed results, the orchestrator completes the batch
and returns exactly the N−1 successful `(safe_title, archive)` results,
in order and unchanged. -/
theorem batch_isolation (build : Str → List Nat → Option Str → Option (Str × List ZEntry))
    (covers : List (Option Str)) (as bs : List (Str × List Nat)) (fn : Str) (fc : List Nat)
    (ras rbs : List (Str × List ZEntry))
    (hA : buildResults build covers 0 as = ras.map some)
    (hd : build fn fc (coverAt covers as.length) = none)
    (hB : buildResults build covers (as.length + 1) bs = rbs.map some) :
    convert_all_files build (as ++ (fn, fc) :: bs) covers = ras ++ rbs ∧
    (ras ++ rbs).length + 1 = (as ++ (fn, fc) :: bs).length := by
  have hlenA : ras.length = as.length := by
    have := buildResults_length build covers as 0
    rw [hA] at this
    simpa using this
  have hlenB : rbs.length = bs.length := by
    have := buildResults_length build covers bs (as.length + 1)
    rw [hB] at this
    simpa using this
  constructor
  · rw [convert_all_files, caLoop_of_results build covers as 0 ras ((fn, fc) :: bs) hA]
    congr 1
    rw [show caLoop build covers (0 + as.length) ((fn, fc) :: bs)
        = caLoop build covers (0 + as.length + 1) bs by
          simp only [caLoop]
          rw [show coverAt covers (0 + as.length) = coverAt covers as.length by simp]
          rw [hd]]
    have := caLoop_of_results build covers bs (0 + as.length + 1) rbs [] ?_
    · rw [show bs ++ ([] : List (Str × List Nat)) = bs by simp] at this
      rw [this]
      simp [caLoop]
    · rw [show 0 + as.length + 1 = as.length + 1 by omega]
      exact hB
  · simp only [List.length_append, List.length_cons, hlenA, hlenB]
    omega

/-- C7 witness: a two-document batch whose first document fails; the
orchestrator returns exactly the second document's result. -/
theorem batch_isolation_witness :
    convert_all_files
        (fun n _ _ => if n = [] then none else some (n, []))
        [([], []), ([(r"b").data.head!], [])] []
      = [([(r"b").data.head!], [])] ∧
    ([(([(r"b").data.head!], []) : Str × List ZEntry)]).length + 1
      = ([(([] : Str), ([] : List Nat)), ([(r"b").data.head!], [])]).length := by
  have := batch_isolation
    (fun n _ _ => if n = [] then none else some (n, []))
    [] [] [([(r"b").data.head!], [])] [] [] [] [([(r"b").data.head!], [])]
    (by decide) (by decide) (by decide)
  simpa using this

theorem isChapterEntry_chapterEntryName (i : Nat) :
    isChapterEntry (chapterEntryName i) = true := by
  have hsplit : chapterEntryName i
      = (r"OEBPS/chapter_").data ++ (pad4 i ++ (r".xhtml").data) := by
    simp [chapterEntryName, chapterFname]
  have hpre : ((r"OEBPS/chapter_").data).isPrefixOf (chapterEntryName i) = true := by
    rw [hsplit]
    exact List.isPrefixOf_iff_prefix.mpr (List.prefix_append _ _)
  have hsplit2 : chapterEntryName i
      = ((r"OEBPS/").data ++ ((r"chapter_").data ++ pad4 i)) ++ (r".xhtml").data := by
    simp [chapterEntryName, chapterFname]
  have hsuf : ((r".xhtml").data).isSuffixOf (chapterEntryName i) = true := by
    rw [hsplit2]
    exact List.isSuffixOf_iff_suffix.mpr (List.suffix_append _ _)
  simp [isChapterEntry, hpre, hsuf]

theorem isChapterEntry_mimetypeName : isChapterEntry mimetypeName = false := by decide

theorem isChapterEntry_containerName : isChapterEntry containerName = false := by decide

theorem isChapterEntry_fontEntryName : isChapterEntry fontEntryName = false := by decide

theorem isChapterEntry_cssName : isChapterEntry cssName = false := by decide

theorem isChapterEntry_coverJpgName : isChapterEntry coverJpgName = false := by decide

theorem isChapterEntry_coverXhtmlName : isChapterEntry coverXhtmlName = false := by decide

theorem isChapterEntry_ncxName : isChapterEntry ncxName = false := by decide

theorem isChapterEntry_opfName : isChapterEntry opfName = false := by decide

theorem countP_chapterEntries (t a : Str) (chs : List (Str × List Str)) :
    ((chs.enum.map (fun p =>
        (⟨chapterEntryName p.1, chapterXhtml t a p.1 p.2.1 p.2.2, false⟩ : ZEntry))).countP
      (fun e => isChapterEntry e.name)) = chs.length := by
  rw [List.countP_eq_length.mpr]
  · simp
  · intro e he
    simp only [List.mem_map] at he
    obtain ⟨p, _, rfl⟩ := he
    exact isChapterEntry_chapterEntryName p.1

theorem buildEntries_chapter_count (t a : Str) (chs : List (Str × List Str))
    (cov : Option Str) (fb bid : Str) :
    (buildEntries t a chs cov fb bid).countP (fun e => isChapterEntry e.name)
      = chs.length := by
  cases cov with
  | none =>
    simp only [buildEntries, List.countP_cons, List.countP_append, List.nil_append,
      countP_chapterEntries, isChapterEntry_mimetypeName, isChapterEntry_containerName,
      isChapterEntry_fontEntryName, isChapterEntry_cssName, isChapterEntry_ncxName,
      isChapterEntry_opfName, List.countP_nil]
    simp
  | some cv =>
    simp only [buildEntries, List.countP_cons, List.countP_append, List.cons_append,
      List.nil_append, countP_chapterEntries, isChapterEntry_mimetypeName,
      isChapterEntry_containerName, isChapterEntry_fontEntryName, isChapterEntry_cssName,
      isChapterEntry_coverJpgName, isChapterEntry_coverXhtmlName, isChapterEntry_ncxName,
      isChapterEntry_opfName, List.countP_nil]
    simp

/-- C3: every archive produced by a successful single-document
conversion has the `mimetype` entry first, stored uncompressed with
content exactly `application/epub+zip`; `META-INF/container.xml` and
`OEBPS/content.opf` are present; and the number of chapter XHTML entries
equals the number of NCX `navPoint` blocks, the number of chapter
manifest items, and the number of spine itemrefs minus the optional
leading cover itemref. -/
theorem epub_archive_wellformed (fileName : Str) (fileContent : List Nat)
    (coverImage : Option Str) (useChapterSplit : Bool) (detected : Option (String × Str))
    (other : String → List Nat → Option Str) (fontBytes bookId : Str) :
    ∃ (chapters : List (Str × List Str)) (es : List ZEntry),
      (build_single_epub fileName fileContent coverImage useChapterSplit detected other
          fontBytes bookId).2 = es ∧
      es = buildEntries (extract_metadata fileName).1 (extract_metadata fileName).2.1
             chapters coverImage fontBytes bookId ∧
      es.head? = some ⟨mimetypeName, MIMETYPE, true⟩ ∧
      MIMETYPE = (r"application/epub+zip").data ∧
      containerName ∈ es.map ZEntry.name ∧
      opfName ∈ es.map ZEntry.name ∧
      es.countP (fun e => isChapterEntry e.name) = chapters.length ∧
      (navPoints chapters).length = chapters.length ∧
      (manifestItems chapters.length).length = chapters.length ∧
      (spineItems coverImage.isSome chapters.length).length
        = chapters.length + (if coverImage.isSome then 1 else 0) := by
  refine ⟨epubChapters useChapterSplit (pySplitlines (process_paragraphs 30
      (clean_text (detect_encoding detected other fileContent).2))),
    buildEntries (extract_metadata fileName).1 (extract_metadata fileName).2.1
      (epubChapters useChapterSplit (pySplitlines (process_paragraphs 30
        (clean_text (detect_encoding detected other fileContent).2))))
      coverImage fontBytes bookId,
    rfl, rfl, rfl, rfl, ?_, ?_, buildEntries_chapter_count _ _ _ _ _ _, ?_, ?_, ?_⟩
  · simp [buildEntries]
  · simp [buildEntries]
  · simp [navPoints, List.enum_length]
  · simp [manifestItems]
  · cases coverImage <;> simp [spineItems]

theorem htmlEscape_cons (c : Char) (t : Str) :
    htmlEscape (c :: t) = escChar c ++ htmlEscape t := by
  simp [htmlEscape]

set_option maxHeartbeats 2000000 in
theorem htmlUnescape_cons_ne (c : Char) (t : Str) (h : c ≠ '&') :
    htmlUnescape (c :: t) = c :: htmlUnescape t := by
  conv_lhs => unfold htmlUnescape
  rw [if_neg h]

/-- `html.unescape` inverts `html.escape`: the escaping applied by the
pipeline is exactly single (a doubly escaped text would not satisfy
this). -/
theorem htmlUnescape_htmlEscape (s : Str) : htmlUnescape (htmlEscape s) = s := by
  induction s with
  | nil => rfl
  | cons c t ih =>
    rw [htmlEscape_cons]
    by_cases h1 : c = '&'
    · subst h1
      rw [show escChar '&' ++ htmlEscape t
          = '&' :: 'a' :: 'm' :: 'p' :: ';' :: htmlEscape t from rfl]
      rw [show htmlUnescape ('&' :: 'a' :: 'm' :: 'p' :: ';' :: htmlEscape t)
          = '&' :: htmlUnescape (htmlEscape t) from rfl]
      rw [ih]
    · by_cases h2 : c = '<'
      · subst h2
        rw [show escChar '<' ++ htmlEscape t
            = '&' :: 'l' :: 't' :: ';' :: htmlEscape t from rfl]
        rw [show htmlUnescape ('&' :: 'l' :: 't' :: ';' :: htmlEscape t)
            = '<' :: htmlUnescape (htmlEscape t) from rfl]
        rw [ih]
      · by_cases h3 : c = '>'
        · subst h3
          rw [show escChar '>' ++ htmlEscape t
              = '&' :: 'g' :: 't' :: ';' :: htmlEscape t from rfl]
          rw [show htmlUnescape ('&' :: 'g' :: 't' :: ';' :: htmlEscape t)
              = '>' :: htmlUnescape (htmlEscape t) from rfl]
          rw [ih]
        · by_cases h4 : c = '"'
          · subst h4
            rw [show escChar '"' ++ htmlEscape t
                = '&' :: 'q' :: 'u' :: 'o' :: 't' :: ';' :: htmlEscape t from rfl]
            rw [show htmlUnescape ('&' :: 'q' :: 'u' :: 'o' :: 't' :: ';' :: htmlEscape t)
                = '"' :: htmlUnescape (htmlEscape t) from rfl]
            rw [ih]
          · by_cases h5 : c = '\''
            · subst h5
              rw [show escChar '\'' ++ htmlEscape t
                  = '&' :: '#' :: 'x' :: '2' :: '7' :: ';' :: htmlEscape t from rfl]
              rw [show htmlUnescape ('&' :: '#' :: 'x' :: '2' :: '7' :: ';' :: htmlEscape t)
                  = '\'' :: htmlUnescape (htmlEscape t) from rfl]
              rw [ih]
            · rw [show escChar c = [c] by simp [escChar, h1, h2, h3, h4, h5]]
              rw [show ([c] ++ htmlEscape t) = c :: htmlEscape t from rfl]
              rw [htmlUnescape_cons_ne c _ h1, ih]

theorem escChar_no_specials (c : Char) :
    '<' ∉ escChar c ∧ '>' ∉ escChar c ∧ '"' ∉ escChar c := by
  unfold escChar
  split_ifs with h1 h2 h3 h4 h5
  · decide
  · decide
  · decide
  · decide
  · decide
  · refine ⟨?_, ?_, ?_⟩ <;> intro hmem <;> simp at hmem
    · exact h2 hmem.symm
    · exact h3 hmem.symm
    · exact h4 hmem.symm

/-- No raw `<`, `>`, `"` character survives `html.escape`. -/
theorem htmlEscape_no_specials (s : Str) :
    '<' ∉ htmlEscape s ∧ '>' ∉ htmlEscape s ∧ '"' ∉ htmlEscape s := by
  induction s with
  | nil => simp [htmlEscape]
  | cons c t ih =>
    rw [htmlEscape_cons]
    simp only [List.mem_append, not_or]
    exact ⟨⟨(escChar_no_specials c).1, ih.1⟩,
      ⟨(escChar_no_specials c).2.1, ih.2.1⟩,
      ⟨(escChar_no_specials c).2.2, ih.2.2⟩⟩

theorem mem_escapedNonBlank (lines : List Str) (bl : Str) (h : bl ∈ escapedNonBlank lines) :
    ∃ l ∈ lines, pyStrip l ≠ [] ∧ bl = htmlEscape (pyStrip l) := by
  simp only [escapedNonBlank, List.mem_filterMap] at h
  obtain ⟨l, hl, he⟩ := h
  by_cases hs : pyStrip l = []
  · simp [hs] at he
  · simp only [if_neg hs, Option.some.injEq] at he
    exact ⟨l, hl, hs, he.symm⟩

theorem dcLoop_body_from (P : Str → Prop) (lines : List Str) :
    ∀ cur curLines chapters,
      (∀ bl ∈ curLines, P bl) →
      (∀ hb ∈ chapters, ∀ bl ∈ hb.2, P bl) →
      (∀ l ∈ lines, pyStrip l ≠ [] → P (htmlEscape (pyStrip l))) →
      ∀ hb ∈ dcLoop lines cur curLines chapters, ∀ bl ∈ hb.2, P bl := by
  induction lines with
  | nil =>
    intro cur curLines chapters hcur hch _ hb hmem bl hbl
    by_cases hc : curLines = []
    · simp [dcLoop, hc] at hmem
      exact hch hb hmem bl hbl
    · simp only [dcLoop, if_neg hc] at hmem
      rcases List.mem_append.mp hmem with hin | hone
      · exact hch hb hin bl hbl
      · simp at hone
        subst hone
        exact hcur bl hbl
  | cons l rest ih =>
    intro cur curLines chapters hcur hch hlines hb hmem bl hbl
    have hlrest : ∀ x ∈ rest, pyStrip x ≠ [] → P (htmlEscape (pyStrip x)) :=
      fun x hx => hlines x (List.mem_cons_of_mem l hx)
    by_cases hs : pyStrip l = []
    · rw [show dcLoop (l :: rest) cur curLines chapters
          = dcLoop rest cur curLines chapters by simp [dcLoop, hs]] at hmem
      exact ih cur curLines chapters hcur hch hlrest hb hmem bl hbl
    · by_cases hcm : chapterMatch (pyStrip l)
      · rw [show dcLoop (l :: rest) cur curLines chapters
            = dcLoop rest (pyStrip l) []
                (if curLines = [] then chapters else chapters ++ [(cur, curLines)]) by
              simp [dcLoop, hs, hcm]] at hmem
        refine ih (pyStrip l) [] _ (by simp) ?_ hlrest hb hmem bl hbl
        intro hb' hmem' bl' hbl'
        by_cases hc : curLines = []
        · rw [if_pos hc] at hmem'
          exact hch hb' hmem' bl' hbl'
        · rw [if_neg hc] at hmem'
          rcases List.mem_append.mp hmem' with hin | hone
          · exact hch hb' hin bl' hbl'
          · simp at hone
            subst hone
            exact hcur bl' hbl'
      · rw [show dcLoop (l :: rest) cur curLines chapters
            = dcLoop rest cur (curLines ++ [htmlEscape (pyStrip l)]) chapters by
              simp [dcLoop, hs, hcm]] at hmem
        refine ih cur (curLines ++ [htmlEscape (pyStrip l)]) chapters ?_ hch hlrest hb hmem bl hbl
        intro bl' hbl'
        rcases List.mem_append.mp hbl' with hin | hone
        · exact hcur bl' hin
        · simp at hone
          subst hone
          exact hlines l (List.mem_cons_self l rest) hs

/-- Every body line of every chapter produced by `detect_chapters` is
the HTML-escape of a stripped non-blank input line. -/
theorem detect_chapters_body_from (lines : List Str) (hb : Str × List Str)
    (hmem : hb ∈ detect_chapters lines) (bl : Str) (hbl : bl ∈ hb.2) :
    ∃ l ∈ lines, pyStrip l ≠ [] ∧ bl = htmlEscape (pyStrip l) := by
  by_cases hc : dcLoop lines START_CHAPTER [] [] = []
  · rw [detect_chapters, if_pos hc] at hmem
    simp only [List.mem_singleton] at hmem
    subst hmem
    exact mem_escapedNonBlank lines bl hbl
  · rw [detect_chapters, if_neg hc] at hmem
    exact dcLoop_body_from
      (fun b => ∃ l ∈ lines, pyStrip l ≠ [] ∧ b = htmlEscape (pyStrip l))
      lines START_CHAPTER [] [] (by simp) (by simp)
      (fun l hl hs => ⟨l, hl, hs, rfl⟩) hb hmem bl hbl

theorem occursIn_lift_left (p l r : Str) (h : occursIn p l) : occursIn p (r ++ l) := by
  obtain ⟨u, v, rfl⟩ := h
  exact ⟨r ++ u, v, by simp⟩

theorem occursIn_lift_right (p l r : Str) (h : occursIn p l) : occursIn p (l ++ r) := by
  obtain ⟨u, v, rfl⟩ := h
  exact ⟨u, v ++ r, by simp⟩

theorem wrap_occurs (chLines : List Str) (bl : Str) (h : bl ∈ chLines) :
    occursIn ((r"<p>").data ++ bl ++ (r"</p>").data)
      ((chLines.map (fun line => (r"<p>").data ++ line ++ (r"</p>").data)).flatten) := by
  induction chLines with
  | nil => exact absurd h (List.not_mem_nil bl)
  | cons l0 rest ih =>
    rcases List.mem_cons.mp h with rfl | hr
    · refine ⟨[], (rest.map (fun line => (r"<p>").data ++ line ++ (r"</p>").data)).flatten, ?_⟩
      simp
    · have := ih hr
      simp only [List.map_cons, List.flatten_cons]
      exact occursIn_lift_left _ _ _ this

/-- C8: in the generated chapter XHTML, every body line is the
HTML-escape of its source line — so `<`, `>`, `&`, `"` from source body
text never appear raw (escaped exactly once: un-escaping recovers the
source line) — and the chapter heading is referenced singly escaped in
the body `<h2>`, the document `<title>` and the NCX `navLabel`. -/
theorem escaping_invariant (srcLines : List Str) (title author : Str) (i : Nat)
    (chT : Str) (chB : List Str) (hch : (chT, chB) ∈ detect_chapters srcLines)
    (bl : Str) (hbl : bl ∈ chB) :
    (∃ l ∈ srcLines, bl = htmlEscape (pyStrip l) ∧ htmlUnescape bl = pyStrip l) ∧
    ('<' ∉ bl ∧ '>' ∉ bl ∧ '"' ∉ bl) ∧
    occursIn ((r"<p>").data ++ bl ++ (r"</p>").data) (chapterXhtml title author i chT chB) ∧
    occursIn ((r"<h2>").data ++ htmlEscape chT ++ (r"</h2>").data)
      (chapterXhtml title author i chT chB) ∧
    occursIn ((r"<title>").data ++ htmlEscape chT ++ (r"</title>").data)
      (chapterXhtml title author i chT chB) ∧
    occursIn ((r"<text>").data ++ htmlEscape chT ++ (r"</text>").data) (navPointStr i chT) ∧
    htmlUnescape (htmlEscape chT) = chT := by
  obtain ⟨l, hl, hs, hbl'⟩ := detect_chapters_body_from srcLines (chT, chB) hch bl hbl
  refine ⟨⟨l, hl, hbl', by rw [hbl', htmlUnescape_htmlEscape]⟩, ?_, ?_, ?_, ?_, ?_,
    htmlUnescape_htmlEscape chT⟩
  · rw [hbl']
    exact htmlEscape_no_specials _
  · obtain ⟨u1, v1, hf⟩ := wrap_occurs chB bl hbl
    refine ⟨xhtmlPre ++ htmlEscape chT ++ xhtmlMid ++ chapterHeader title author i
      ++ xhtmlH2open ++ htmlEscape chT ++ xhtmlH2close ++ u1, v1 ++ xhtmlPost, ?_⟩
    simp only [chapterXhtml]
    rw [hf]
    simp [List.append_assoc]
  · obtain ⟨u0, hu0⟩ := List.isSuffixOf_iff_suffix.mp
      (show ((r"<h2>").data).isSuffixOf xhtmlH2open = true by decide)
    obtain ⟨v0, hv0⟩ := List.isPrefixOf_iff_prefix.mp
      (show ((r"</h2>").data).isPrefixOf xhtmlH2close = true by decide)
    refine ⟨xhtmlPre ++ htmlEscape chT ++ xhtmlMid ++ chapterHeader title author i ++ u0,
      v0 ++ (chB.map (fun line => (r"<p>").data ++ line ++ (r"</p>").data)).flatten
        ++ xhtmlPost, ?_⟩
    simp only [chapterXhtml]
    rw [← hu0, ← hv0]
    simp only [List.append_assoc]
  · obtain ⟨u0, hu0⟩ := List.isSuffixOf_iff_suffix.mp
      (show ((r"<title>").data).isSuffixOf xhtmlPre = true by decide)
    obtain ⟨v0, hv0⟩ := List.isPrefixOf_iff_prefix.mp
      (show ((r"</title>").data).isPrefixOf xhtmlMid = true by decide)
    refine ⟨u0, v0 ++ chapterHeader title author i ++ xhtmlH2open ++ htmlEscape chT
      ++ xhtmlH2close
      ++ (chB.map (fun line => (r"<p>").data ++ line ++ (r"</p>").data)).flatten
      ++ xhtmlPost, ?_⟩
    simp only [chapterXhtml]
    rw [← hu0, ← hv0]
    simp only [List.append_assoc]
  · obtain ⟨u0, hu0⟩ := List.isSuffixOf_iff_suffix.mp
      (show ((r"<text>").data).isSuffixOf npC = true by decide)
    obtain ⟨v0, hv0⟩ := List.isPrefixOf_iff_prefix.mp
      (show ((r"</text>").data).isPrefixOf npD = true by decide)
    refine ⟨npA ++ natStr i ++ npB ++ natStr (i + 1) ++ u0,
      v0 ++ chapterFname i ++ npE, ?_⟩
    simp only [navPointStr]
    rw [← hu0, ← hv0]
    simp only [List.append_assoc]

/-- C8 witness: the invariant applied to the concrete one-line document
`"a<b"`, whose single chapter body line is `a&lt;b`. -/
theorem escaping_invariant_witness :
    ∃ l ∈ [c8line], htmlEscape (pyStrip c8line) = htmlEscape (pyStrip l) ∧
      htmlUnescape (htmlEscape (pyStrip c8line)) = pyStrip l :=
  (escaping_invariant [c8line] [] [] 0 START_CHAPTER [htmlEscape (pyStrip c8line)]
    (by decide) (htmlEscape (pyStrip c8line)) (by decide)).1

theorem splitOnChar_ne_nil (sep : Char) (s : Str) : splitOnChar sep s ≠ [] := by
  cases s with
  | nil => simp [splitOnChar]
  | cons c t =>
    by_cases h : c = sep
    · simp [splitOnChar, h]
    · simp only [splitOnChar, if_neg h]
      cases splitOnChar sep t <;> simp

theorem joinSep_splitOnChar (sep : Char) (s : Str) :
    joinSep [sep] (splitOnChar sep s) = s := by
  induction s with
  | nil => rfl
  | cons c t ih =>
    by_cases h : c = sep
    · rw [h]
      rw [show splitOnChar sep (sep :: t) = [] :: splitOnChar sep t by simp [splitOnChar]]
      rw [joinSep_cons _ _ _ (splitOnChar_ne_nil sep t)]
      simp [ih]
    · obtain ⟨l, ls, hs⟩ := List.exists_cons_of_ne_nil (splitOnChar_ne_nil sep t)
      rw [show splitOnChar sep (c :: t) = (c :: l) :: ls by simp [splitOnChar, h, hs]]
      rw [hs] at ih
      cases ls with
      | nil =>
        simp only [joinSep] at ih ⊢
        rw [ih]
      | cons b bs =>
        rw [joinSep_cons _ _ _ (by simp)]
        rw [joinSep_cons _ _ _ (by simp)] at ih
        rw [show (c :: l) ++ [sep] ++ joinSep [sep] (b :: bs)
            = c :: (l ++ [sep] ++ joinSep [sep] (b :: bs)) by simp]
        rw [ih]

theorem joinSep_append_one {α : Type} (sep : List α) (xs : List (List α)) (x : List α) (h : xs ≠ []) :
    joinSep sep (xs ++ [x]) = joinSep sep xs ++ sep ++ x := by
  induction xs with
  | nil => exact absurd rfl h
  | cons a as ih =>
    cases as with
    | nil => rfl
    | cons b bs =>
      rw [show (a :: b :: bs) ++ [x] = a :: ((b :: bs) ++ [x]) from rfl]
      rw [joinSep_cons _ _ _ (by simp), joinSep_cons _ _ _ (by simp)]
      rw [ih (by simp)]
      simp [List.append_assoc]

theorem wrapLoop_line_bound (limit : Nat) (W : List Str) :
    ∀ ws cur len,
      (∀ w ∈ ws, w ∈ W) →
      (cur = [] ∨
        ((joinSep [' '] cur).length ≤ len ∧ (len ≤ limit ∨ ∃ w ∈ W, cur = [w]))) →
      ∀ L ∈ wrapLoop limit ws cur len, L.length ≤ limit ∨ L ∈ W := by
  intro ws
  induction ws with
  | nil =>
    intro cur len _ hinv L hL
    by_cases hc : cur = []
    · simp [wrapLoop, hc] at hL
    · simp only [wrapLoop, if_neg hc, List.mem_singleton] at hL
      subst hL
      rcases hinv with rfl | ⟨hlen, hor⟩
      · exact absurd rfl hc
      · rcases hor with hle | ⟨w, hw, rfl⟩
        · exact Or.inl (le_trans hlen hle)
        · exact Or.inr (by simpa [joinSep] using hw)
  | cons w ws ih =>
    intro cur len hws hinv L hL
    have hwW : w ∈ W := hws w (List.mem_cons_self _ _)
    have hwsW : ∀ x ∈ ws, x ∈ W := fun x hx => hws x (List.mem_cons_of_mem _ hx)
    by_cases hfit : len + w.length + 1 ≤ limit
    · rw [show wrapLoop limit (w :: ws) cur len
          = wrapLoop limit ws (cur ++ [w]) (len + w.length + 1) by
            simp [wrapLoop, hfit]] at hL
      refine ih (cur ++ [w]) (len + w.length + 1) hwsW (Or.inr ⟨?_, Or.inl hfit⟩) L hL
      by_cases hc : cur = []
      · subst hc
        simp only [List.nil_append, joinSep]
        omega
      · rw [joinSep_append_one _ _ _ hc]
        rcases hinv with rfl | ⟨hlen, _⟩
        · exact absurd rfl hc
        · simp only [List.length_append, List.length_singleton]
          omega
    · by_cases hc : cur = []
      · rw [show wrapLoop limit (w :: ws) cur len = wrapLoop limit ws [w] w.length by
            simp [wrapLoop, hfit, hc]] at hL
        exact ih [w] w.length hwsW
          (Or.inr ⟨by simp [joinSep], Or.inr ⟨w, hwW, rfl⟩⟩) L hL
      · rw [show wrapLoop limit (w :: ws) cur len
            = joinSep [' '] cur :: wrapLoop limit ws [w] w.length by
              simp [wrapLoop, hfit, hc]] at hL
        rcases List.mem_cons.mp hL with rfl | hL'
        · rcases hinv with rfl | ⟨hlen, hor⟩
          · exact absurd rfl hc
          · rcases hor with hle | ⟨w', hw', rfl⟩
            · exact Or.inl (le_trans hlen hle)
            · exact Or.inr (by simpa [joinSep] using hw')
        · exact ih [w] w.length hwsW
            (Or.inr ⟨by simp [joinSep], Or.inr ⟨w, hwW, rfl⟩⟩) L hL'

/-- C9 counterexample: the normalised form of a single 61-character word
is one paragraph consisting of a single line longer than the
60-character threshold, and the re-flow step leaves that 61-character
line in place — the output is not made of lines that do not exceed the
threshold. -/
theorem reflow_threshold_counterexample :
    splitOnChar '\n' (normalizeText w61) = [w61] ∧
    pyStrip w61 ≠ [] ∧ 60 < w61.length ∧ normalizeText w61 = w61 := by decide

/-- C9 (amended): a paragraph already split across several lines is
returned unchanged; a paragraph that is a single line longer than
`min_chars_per_line * 2` (60 by default) is replaced by the greedy
re-wrap of its whitespace-delimited words, and every produced line
either stays within the threshold or is a single word (a word longer
than the threshold gets a line of its own, exceeding the threshold). -/
theorem reflow_spec (minChars : Nat) (para : Str) :
    (2 ≤ (splitOnChar '\n' para).length → processPara minChars para = para) ∧
    (∀ l, splitOnChar '\n' para = [l] → minChars * 2 < l.length →
      processPara minChars para
        = joinSep ['\n'] (wrapLoop (minChars * 2) (pyWords l) [] 0) ∧
      ∀ L ∈ wrapLoop (minChars * 2) (pyWords l) [] 0,
        L.length ≤ minChars * 2 ∨ L ∈ pyWords l) := by
  constructor
  · intro hlen
    have hj := joinSep_splitOnChar '\n' para
    rcases hls : splitOnChar '\n' para with _ | ⟨l, ls⟩
    · exact absurd hls (splitOnChar_ne_nil '\n' para)
    · cases ls with
      | nil => rw [hls] at hlen; simp at hlen
      | cons b bs =>
        rw [processPara, hls]
        rw [hls] at hj
        exact hj
  · intro l hls hlong
    have hred : processPara minChars para
        = if minChars * 2 < l.length then
            joinSep ['\n'] (wrapLoop (minChars * 2) (pyWords l) [] 0)
          else joinSep ['\n'] [l] := by
      rw [processPara, hls]
    rw [hred, if_pos hlong]
    refine ⟨rfl, ?_⟩
    intro L hL
    exact wrapLoop_line_bound (minChars * 2) (pyWords l) (pyWords l) [] 0
      (fun w hw => hw) (Or.inl rfl) L hL

/-- C9 witness: the amended statement applied to the two-line paragraph
`"a\nb"` (unchanged) and to the long single-word paragraph `w61`. -/
theorem reflow_spec_witness :
    processPara 30 w2par = w2par ∧
    (processPara 30 w61 = joinSep ['\n'] (wrapLoop (30 * 2) (pyWords w61) [] 0) ∧
      ∀ L ∈ wrapLoop (30 * 2) (pyWords w61) [] 0,
        L.length ≤ 30 * 2 ∨ L ∈ pyWords w61) :=
  ⟨(reflow_spec 30 w2par).1 (by decide),
   (reflow_spec 30 w61).2 w61 (by decide) (by decide)⟩

theorem mem_splitOnChar_no_sep (sep : Char) (s : Str) :
    ∀ l ∈ splitOnChar sep s, sep ∉ l := by
  induction s with
  | nil =>
    intro l hl
    simp [splitOnChar] at hl
    simp [hl]
  | cons c t ih =>
    intro l hl
    by_cases h : c = sep
    · rw [show splitOnChar sep (c :: t) = [] :: splitOnChar sep t by simp [splitOnChar, h]]
        at hl
      rcases List.mem_cons.mp hl with rfl | hin
      · simp
      · exact ih l hin
    · obtain ⟨q, qs, hs⟩ := List.exists_cons_of_ne_nil (splitOnChar_ne_nil sep t)
      rw [show splitOnChar sep (c :: t) = (c :: q) :: qs by simp [splitOnChar, h, hs]] at hl
      rcases List.mem_cons.mp hl with rfl | hin
      · intro hmem
        rcases List.mem_cons.mp hmem with rfl | hmem'
        · exact h rfl
        · exact ih q (by rw [hs]; exact List.mem_cons_self q qs) hmem'
      · exact ih l (by rw [hs]; exact List.mem_cons_of_mem q hin)

theorem mem_of_mem_splitOnChar (sep : Char) (s : Str) (l : Str) (hl : l ∈ splitOnChar sep s)
    (c : Char) (hc : c ∈ l) : c ∈ s := by
  induction s generalizing l with
  | nil =>
    simp [splitOnChar] at hl
    subst hl
    exact absurd hc (List.not_mem_nil c)
  | cons a t ih =>
    by_cases h : a = sep
    · rw [show splitOnChar sep (a :: t) = [] :: splitOnChar sep t by simp [splitOnChar, h]]
        at hl
      rcases List.mem_cons.mp hl with rfl | hin
      · exact absurd hc (List.not_mem_nil c)
      · exact List.mem_cons_of_mem a (ih l hin hc)
    · obtain ⟨q, qs, hs⟩ := List.exists_cons_of_ne_nil (splitOnChar_ne_nil sep t)
      rw [show splitOnChar sep (a :: t) = (a :: q) :: qs by simp [splitOnChar, h, hs]] at hl
      rcases List.mem_cons.mp hl with rfl | hin
      · rcases List.mem_cons.mp hc with rfl | hc'
        · exact List.mem_cons_self c t
        · exact List.mem_cons_of_mem a
            (ih q (by rw [hs]; exact List.mem_cons_self q qs) hc')
      · exact List.mem_cons_of_mem a (ih l (by rw [hs]; exact List.mem_cons_of_mem q hin) hc)

theorem splitOnChar_no_sep (sep : Char) (l : Str) (h : sep ∉ l) :
    splitOnChar sep l = [l] := by
  induction l with
  | nil => rfl
  | cons c t ih =>
    have hc : c ≠ sep := fun hcs => h (hcs ▸ List.mem_cons_self c t)
    have ht : sep ∉ t := fun hts => h (List.mem_cons_of_mem c hts)
    rw [show splitOnChar sep (c :: t) = [c :: t] by simp [splitOnChar, hc, ih ht]]

theorem splitOnChar_append_cons (sep : Char) (l : Str) (hsep : sep ∉ l) (J : Str) :
    splitOnChar sep (l ++ sep :: J) = l :: splitOnChar sep J := by
  induction l with
  | nil => simp [splitOnChar]
  | cons c t ih =>
    have hc : c ≠ sep := fun hcs => hsep (hcs ▸ List.mem_cons_self c t)
    have ht : sep ∉ t := fun hts => hsep (List.mem_cons_of_mem c hts)
    rw [show (c :: t) ++ sep :: J = c :: (t ++ sep :: J) from rfl]
    rw [show splitOnChar sep (c :: (t ++ sep :: J))
        = (c :: t) :: splitOnChar sep J by simp [splitOnChar, hc, ih ht]]

theorem splitOnChar_join_inv (sep : Char) (ls : List Str) (hne : ls ≠ [])
    (hfree : ∀ l ∈ ls, sep ∉ l) :
    splitOnChar sep (joinSep [sep] ls) = ls := by
  induction ls with
  | nil => exact absurd rfl hne
  | cons l ls' ih =>
    cases ls' with
    | nil =>
      simp only [joinSep]
      exact splitOnChar_no_sep sep l (hfree l (List.mem_cons_self l []))
    | cons b bs =>
      rw [joinSep_cons _ _ _ (by simp)]
      rw [show l ++ [sep] ++ joinSep [sep] (b :: bs) = l ++ sep :: joinSep [sep] (b :: bs) by
        simp]
      rw [splitOnChar_append_cons sep l (hfree l (List.mem_cons_self l _))]
      rw [ih (by simp) (fun x hx => hfree x (List.mem_cons_of_mem l hx))]

theorem dropWhile_head_not (p : Char → Bool) (l : Str) :
    ∀ c ∈ (l.dropWhile p).head?, p c = false := by
  induction l with
  | nil => simp
  | cons a t ih =>
    intro c hc
    by_cases hp : p a
    · rw [List.dropWhile_cons, if_pos hp] at hc
      exact ih c hc
    · rw [List.dropWhile_cons, if_neg hp] at hc
      simp at hc
      subst hc
      simpa using hp

theorem dropWhile_eq_self_of_head (p : Char → Bool) (l : Str)
    (h : ∀ c ∈ l.head?, p c = false) : l.dropWhile p = l := by
  cases l with
  | nil => rfl
  | cons a t =>
    have := h a (by simp)
    rw [List.dropWhile_cons, if_neg (by simp [this])]

theorem pyStrip_sub (l : Str) : ∀ c ∈ pyStrip l, c ∈ l := by
  intro c hc
  rw [pyStrip, List.mem_reverse] at hc
  have h1 := (@List.dropWhile_sublist Char ((l.dropWhile isWS).reverse) isWS).subset hc
  rw [List.mem_reverse] at h1
  exact (List.dropWhile_sublist isWS).subset h1

theorem pyStrip_eq_nil_iff (l : Str) : pyStrip l = [] ↔ ∀ c ∈ l, isWS c = true := by
  constructor
  · intro h c hc
    rw [pyStrip] at h
    have h2 : List.dropWhile isWS ((l.dropWhile isWS).reverse) = [] := by
      simpa using congrArg List.reverse h
    have h3 : ∀ x ∈ (l.dropWhile isWS).reverse, isWS x = true :=
      List.dropWhile_eq_nil_iff.mp h2
    have h4 : ∀ x ∈ l.dropWhile isWS, isWS x = true := by
      intro x hx
      exact h3 x (List.mem_reverse.mpr hx)
    have hsplit := List.takeWhile_append_dropWhile isWS l
    rw [← hsplit] at hc
    rcases List.mem_append.mp hc with hin | hin
    · exact List.mem_takeWhile_imp hin
    · exact h4 c hin
  · intro h
    have h1 : l.dropWhile isWS = [] :=
      List.dropWhile_eq_nil_iff.mpr h
    simp [pyStrip, h1]

theorem pyStrip_head_not_ws (l : Str) : ∀ c ∈ (pyStrip l).head?, isWS c = false := by
  intro c hc
  rw [pyStrip, List.head?_reverse] at hc
  rcases hY : List.dropWhile isWS ((l.dropWhile isWS).reverse) with _ | ⟨a, as⟩
  · rw [hY] at hc
    simp at hc
  · rw [hY] at hc
    obtain ⟨t, ht⟩ := @List.dropWhile_suffix Char ((l.dropWhile isWS).reverse) isWS
    rw [hY] at ht
    have hlast : ((l.dropWhile isWS).reverse).getLast? = (a :: as).getLast? := by
      rw [← ht]
      exact List.getLast?_append_of_ne_nil t (by simp)
    rw [← hlast, List.getLast?_reverse] at hc
    exact dropWhile_head_not isWS l c hc

theorem pyStrip_last_not_ws (l : Str) : ∀ c ∈ (pyStrip l).getLast?, isWS c = false := by
  intro c hc
  rw [pyStrip, List.getLast?_reverse] at hc
  exact dropWhile_head_not isWS ((l.dropWhile isWS).reverse) c hc

theorem pyStrip_eq_self (l : Str) (h1 : ∀ c ∈ l.head?, isWS c = false)
    (h2 : ∀ c ∈ l.getLast?, isWS c = false) : pyStrip l = l := by
  rw [pyStrip, dropWhile_eq_self_of_head isWS l h1]
  rw [dropWhile_eq_self_of_head isWS l.reverse (by
    intro c hc
    rw [List.head?_reverse] at hc
    exact h2 c hc)]
  exact List.reverse_reverse l

theorem pyStrip_idem (l : Str) : pyStrip (pyStrip l) = pyStrip l :=
  pyStrip_eq_self (pyStrip l) (pyStrip_head_not_ws l) (pyStrip_last_not_ws l)

theorem normNl_no_cr (s : Str) : '\r' ∉ normNl s := by
  induction s using normNl.induct with
  | case1 => simp [normNl]
  | case2 => simp [normNl]
  | case3 c h =>
    simp only [normNl, if_neg h, List.mem_singleton]
    exact fun hx => h hx.symm
  | case4 t ih => simp [normNl, ih]
  | case5 d t hd ih => simp [normNl, hd, ih]
  | case6 c d t hc ih =>
    simp only [normNl, if_neg hc, List.mem_cons, not_or]
    exact ⟨fun hx => hc hx.symm, ih⟩

theorem normNl_id (s : Str) (h : '\r' ∉ s) : normNl s = s := by
  induction s using normNl.induct with
  | case1 => rfl
  | case2 => simp at h
  | case3 c hc => simp [normNl, hc]
  | case4 t ih => simp at h
  | case5 d t hd ih => simp at h
  | case6 c d t hc ih =>
    have hdt : '\r' ∉ d :: t := fun hx => h (List.mem_cons_of_mem c hx)
    simp only [normNl, if_neg hc]
    rw [ih hdt]

theorem mem_collapse3Aux (s : Str) : ∀ k c, c ∈ collapse3Aux k s → c ∈ s := by
  induction s with
  | nil => intro k c hc; simp [collapse3Aux] at hc
  | cons a t ih =>
    intro k c hc
    by_cases ha : a = '\n'
    · by_cases hk : 2 ≤ k
      · rw [show collapse3Aux k (a :: t) = collapse3Aux k t by
          simp [collapse3Aux, ha, hk]] at hc
        exact List.mem_cons_of_mem a (ih k c hc)
      · rw [show collapse3Aux k (a :: t) = '\n' :: collapse3Aux (k + 1) t by
          simp [collapse3Aux, ha, hk]] at hc
        rcases List.mem_cons.mp hc with rfl | hin
        · simp [ha]
        · exact List.mem_cons_of_mem a (ih (k + 1) c hin)
    · rw [show collapse3Aux k (a :: t) = a :: collapse3Aux 0 t by
        simp [collapse3Aux, ha]] at hc
      rcases List.mem_cons.mp hc with rfl | hin
      · exact List.mem_cons_self c t
      · exact List.mem_cons_of_mem a (ih 0 c hin)

theorem mem_collapseEmptyAux (ls : List Str) :
    ∀ b l, l ∈ collapseEmptyAux b ls → l = [] ∨ l ∈ ls := by
  induction ls with
  | nil => intro b l hl; simp [collapseEmptyAux] at hl
  | cons a rest ih =>
    intro b l hl
    by_cases ha : a = []
    · by_cases hb : b
      · rw [show collapseEmptyAux b (a :: rest) = collapseEmptyAux true rest by
          simp [collapseEmptyAux, ha, hb]] at hl
        rcases ih true l hl with h | h
        · exact Or.inl h
        · exact Or.inr (List.mem_cons_of_mem a h)
      · rw [show collapseEmptyAux b (a :: rest) = [] :: collapseEmptyAux true rest by
          simp [collapseEmptyAux, ha, hb]] at hl
        rcases List.mem_cons.mp hl with rfl | hin
        · exact Or.inl rfl
        · rcases ih true l hin with h | h
          · exact Or.inl h
          · exact Or.inr (List.mem_cons_of_mem a h)
    · rw [show collapseEmptyAux b (a :: rest) = a :: collapseEmptyAux false rest by
        simp [collapseEmptyAux, ha]] at hl
      rcases List.mem_cons.mp hl with rfl | hin
      · exact Or.inr (List.mem_cons_self l rest)
      · rcases ih false l hin with h | h
        · exact Or.inl h
        · exact Or.inr (List.mem_cons_of_mem a h)

theorem collapseEmpty_ne_nil (l : Str) (rest : List Str) :
    collapseEmptyAux false (l :: rest) ≠ [] := by
  by_cases ha : l = [] <;> simp [collapseEmptyAux, ha]

theorem mem_joinSep {α : Type} (sep : List α) (ls : List (List α)) (c : α) :
    c ∈ joinSep sep ls → c ∈ sep ∨ ∃ l ∈ ls, c ∈ l := by
  induction ls with
  | nil => intro hc; simp [joinSep] at hc
  | cons l ls' ih =>
    intro hc
    cases ls' with
    | nil =>
      exact Or.inr ⟨l, List.mem_cons_self l [], by simp [joinSep] at hc; exact hc⟩
    | cons b bs =>
      rw [joinSep_cons _ _ _ (by simp)] at hc
      rcases List.mem_append.mp hc with h1 | h2
      · rcases List.mem_append.mp h1 with hin | hin
        · exact Or.inr ⟨l, List.mem_cons_self l _, hin⟩
        · exact Or.inl hin
      · rcases ih h2 with h | ⟨x, hx, hcx⟩
        · exact Or.inl h
        · exact Or.inr ⟨x, List.mem_cons_of_mem l hx, hcx⟩

theorem mem_joinSep_of_mem {α : Type} (sep : List α) (ls : List (List α)) (l : List α)
    (hl : l ∈ ls) (c : α) (hc : c ∈ l) : c ∈ joinSep sep ls := by
  induction ls with
  | nil => exact absurd hl (List.not_mem_nil l)
  | cons a ls' ih =>
    cases ls' with
    | nil =>
      simp at hl
      subst hl
      simpa [joinSep] using hc
    | cons b bs =>
      rw [joinSep_cons _ _ _ (by simp)]
      rcases List.mem_cons.mp hl with rfl | hin
      · exact List.mem_append.mpr (Or.inl (List.mem_append.mpr (Or.inl hc)))
      · exact List.mem_append.mpr (Or.inr (ih hin))

theorem splitNN_ne_nil (s : Str) : splitNN s ≠ [] := by
  induction s using splitNN.induct with
  | case1 => simp [splitNN]
  | case2 c => simp [splitNN]
  | case3 c d t h ih => simp [splitNN, h]
  | case4 c d t h hnil ih => simp [splitNN, h, hnil]
  | case5 c d t h p ps hps ih => simp [splitNN, h, hps]

theorem splitNN_head_piece (d : Char) (t : Str) :
    (splitNN (d :: t)).head? = some [] ∨ ∃ p', (splitNN (d :: t)).head? = some (d :: p') := by
  cases t with
  | nil => exact Or.inr ⟨[], rfl⟩
  | cons d2 t2 =>
    by_cases hsep : d = '\n' ∧ d2 = '\n'
    · left
      rw [show splitNN (d :: d2 :: t2) = [] :: splitNN t2 by simp [splitNN, hsep]]
      rfl
    · right
      obtain ⟨q, qs, hq⟩ := List.exists_cons_of_ne_nil (splitNN_ne_nil (d2 :: t2))
      refine ⟨q, ?_⟩
      rw [show splitNN (d :: d2 :: t2) = (d :: q) :: qs by simp [splitNN, hsep, hq]]
      rfl

theorem mem_splitNN (s : Str) : ∀ p ∈ splitNN s, ∀ c ∈ p, c ∈ s := by
  induction s using splitNN.induct with
  | case1 =>
    intro p hp
    simp [splitNN] at hp
    simp [hp]
  | case2 c =>
    intro p hp
    simp [splitNN] at hp
    simp [hp]
  | case3 c d t h ih =>
    intro p hp
    simp only [splitNN, if_pos h] at hp
    rcases List.mem_cons.mp hp with rfl | hin
    · simp
    · intro x hx
      have := ih p hin x hx
      simp [this]
  | case4 c d t h hnil ih => exact absurd hnil (splitNN_ne_nil (d :: t))
  | case5 c d t h p ps hps ih =>
    intro q hq
    rw [show splitNN (c :: d :: t) = (c :: p) :: ps by simp [splitNN, h, hps]] at hq
    rcases List.mem_cons.mp hq with rfl | hin
    · intro x hx
      rcases List.mem_cons.mp hx with rfl | hx'
      · simp
      · have := ih p (by rw [hps]; exact List.mem_cons_self p ps) x hx'
        simp [this]
    · intro x hx
      have := ih q (by rw [hps]; exact List.mem_cons_of_mem p hin) x hx
      simp [this]

theorem splitNN_no_NN (s : Str) : ∀ p ∈ splitNN s, hasNN p = false := by
  induction s using splitNN.induct with
  | case1 =>
    intro p hp
    simp [splitNN] at hp
    simp [hp, hasNN]
  | case2 c =>
    intro p hp
    simp [splitNN] at hp
    simp [hp, hasNN]
  | case3 c d t h ih =>
    intro p hp
    simp only [splitNN, if_pos h] at hp
    rcases List.mem_cons.mp hp with rfl | hin
    · simp [hasNN]
    · exact ih p hin
  | case4 c d t h hnil ih => exact absurd hnil (splitNN_ne_nil (d :: t))
  | case5 c d t h p ps hps ih =>
    intro q hq
    rw [show splitNN (c :: d :: t) = (c :: p) :: ps by simp [splitNN, h, hps]] at hq
    rcases List.mem_cons.mp hq with rfl | hin
    · have hp' : hasNN p = false := ih p (by rw [hps]; exact List.mem_cons_self p ps)
      cases p with
      | nil => simp [hasNN]
      | cons e p' =>
        have hhead : e = d := by
          rcases splitNN_head_piece d t with hcase | ⟨p2, hcase⟩
          · rw [hps] at hcase
            simp at hcase
          · rw [hps] at hcase
            simp at hcase
            exact hcase.1
        subst hhead
        have hcd : (c == '\n' && e == '\n') = false := by
          by_cases hc : c = '\n'
          · by_cases hd : e = '\n'
            · exact absurd ⟨hc, hd⟩ h
            · simp [hd]
          · simp [hc]
        rw [show hasNN (c :: e :: p') = ((c == '\n' && e == '\n') || hasNN (e :: p'))
            from rfl, hcd, hp']
        rfl
    · exact ih q (by rw [hps]; exact List.mem_cons_of_mem p hin)

theorem splitNN_of_no_NN (s : Str) (h : hasNN s = false) : splitNN s = [s] := by
  induction s using splitNN.induct with
  | case1 => rfl
  | case2 c => rfl
  | case3 c d t hsep ih =>
    exfalso
    rw [show hasNN (c :: d :: t) = ((c == '\n' && d == '\n') || hasNN (d :: t))
        from rfl] at h
    simp [hsep.1, hsep.2] at h
  | case4 c d t hsep hnil ih => exact absurd hnil (splitNN_ne_nil (d :: t))
  | case5 c d t hsep p ps hps ih =>
    have hdt : hasNN (d :: t) = false := by
      rw [show hasNN (c :: d :: t) = ((c == '\n' && d == '\n') || hasNN (d :: t))
          from rfl] at h
      exact (Bool.or_eq_false_iff.mp h).2
    have := ih hdt
    rw [hps] at this
    have h1 : p = d :: t := (List.cons_eq_cons.mp this).1
    have h2 : ps = [] := (List.cons_eq_cons.mp this).2
    rw [show splitNN (c :: d :: t) = (c :: p) :: ps by simp [splitNN, hsep, hps], h1, h2]

theorem splitNN_append_sep (J : Str) : ∀ p : Str, hasNN p = false →
    p.getLast? ≠ some '\n' →
    splitNN (p ++ '\n' :: '\n' :: J) = p :: splitNN J := by
  intro p
  induction p with
  | nil =>
    intro _ _
    simp [splitNN]
  | cons a p ih =>
    intro hNN hlast
    cases p with
    | nil =>
      have ha : a ≠ '\n' := by
        intro hx
        exact hlast (by simp [hx])
      have hcond : ¬(a = '\n' ∧ '\n' = '\n') := fun hx => ha hx.1
      have hinner : splitNN ('\n' :: '\n' :: J) = [] :: splitNN J := by
        simp [splitNN]
      simp only [List.cons_append, List.nil_append]
      rw [show splitNN (a :: '\n' :: '\n' :: J) = (a :: ([] : Str)) :: splitNN J by
        simp [splitNN, hcond, hinner, ha]]
    | cons b p2 =>
      have heq : hasNN (a :: b :: p2) = ((a == '\n' && b == '\n') || hasNN (b :: p2)) :=
        rfl
      have hab : ¬(a = '\n' ∧ b = '\n') := by
        intro ⟨h1, h2⟩
        rw [heq] at hNN
        simp [h1, h2] at hNN
      have hNN' : hasNN (b :: p2) = false := by
        rw [heq] at hNN
        exact (Bool.or_eq_false_iff.mp hNN).2
      have hlast' : (b :: p2).getLast? ≠ some '\n' := by
        rw [List.getLast?_cons_cons] at hlast
        exact hlast
      have hinner : splitNN (b :: (p2 ++ '\n' :: '\n' :: J)) = (b :: p2) :: splitNN J := by
        have := ih hNN' hlast'
        simpa using this
      simp only [List.cons_append]
      rw [show splitNN (a :: b :: (p2 ++ '\n' :: '\n' :: J)) =
          (a :: b :: p2) :: splitNN J by simp [splitNN, hab, hinner]]

theorem splitNN_joinSep : ∀ ps : List Str, ps ≠ [] →
    (∀ p ∈ ps, hasNN p = false) →
    (∀ p ∈ ps.dropLast, p.getLast? ≠ some '\n') →
    splitNN (joinSep ['\n', '\n'] ps) = ps := by
  intro ps
  induction ps with
  | nil => intro h; exact absurd rfl h
  | cons p ps ih =>
    intro _ hNN hlast
    cases ps with
    | nil =>
      rw [show joinSep ['\n', '\n'] [p] = p from rfl]
      exact splitNN_of_no_NN p (hNN p (List.mem_cons_self p []))
    | cons p2 ps2 =>
      rw [joinSep_cons _ _ _ (List.cons_ne_nil p2 ps2), List.append_assoc]
      simp only [List.cons_append, List.nil_append]
      rw [splitNN_append_sep _ p (hNN p (List.mem_cons_self p _))
        (hlast p (by rw [List.dropLast_cons₂]; exact List.mem_cons_self p _))]
      rw [ih (List.cons_ne_nil p2 ps2)
        (fun q hq => hNN q (List.mem_cons_of_mem p hq))
        (fun q hq => hlast q (by rw [List.dropLast_cons₂]; exact List.mem_cons_of_mem p hq))]

theorem isWS_nl : isWS '\n' = true := by decide

theorem isWS_cr : isWS '\r' = true := by decide

theorem hasNN_cons_ne (c : Char) (s : Str) (hc : c ≠ '\n') : hasNN (c :: s) = hasNN s := by
  cases s with
  | nil => rfl
  | cons d t =>
    rw [show hasNN (c :: d :: t) = ((c == '\n' && d == '\n') || hasNN (d :: t)) from rfl]
    simp [hc]

theorem hasNNN_cons_ne (c : Char) (s : Str) (hc : c ≠ '\n') : hasNNN (c :: s) = hasNNN s := by
  cases s with
  | nil => rfl
  | cons d t =>
    cases t with
    | nil => rfl
    | cons e t2 =>
      rw [show hasNNN (c :: d :: e :: t2)
          = ((c == '\n' && d == '\n' && e == '\n') || hasNNN (d :: e :: t2)) from rfl]
      simp [hc]

theorem hasNN_nl_cons (X : Str) (hX : X.head? ≠ some '\n') : hasNN ('\n' :: X) = hasNN X := by
  cases X with
  | nil => rfl
  | cons c t =>
    have hc : c ≠ '\n' := fun h => hX (by rw [h]; rfl)
    rw [show hasNN ('\n' :: c :: t) = (('\n' == '\n' && c == '\n') || hasNN (c :: t)) from rfl]
    simp [hc]

theorem hasNNN_nl_cons (X : Str) (hX : X.head? ≠ some '\n') :
    hasNNN ('\n' :: X) = hasNNN X := by
  cases X with
  | nil => rfl
  | cons c t =>
    cases t with
    | nil => rfl
    | cons d t2 =>
      have hc : c ≠ '\n' := fun h => hX (by rw [h]; rfl)
      rw [show hasNNN ('\n' :: c :: d :: t2)
          = (('\n' == '\n' && c == '\n' && d == '\n') || hasNNN (c :: d :: t2)) from rfl]
      simp [hc]

theorem hasNNN_nl_nl (X : Str) (hX : X.head? ≠ some '\n') :
    hasNNN ('\n' :: '\n' :: X) = hasNNN ('\n' :: X) := by
  cases X with
  | nil => rfl
  | cons c t =>
    have hc : c ≠ '\n' := fun h => hX (by rw [h]; rfl)
    rw [show hasNNN ('\n' :: '\n' :: c :: t)
        = (('\n' == '\n' && '\n' == '\n' && c == '\n') || hasNNN ('\n' :: c :: t)) from rfl]
    simp [hc]

theorem hasNN_of_not_mem (s : Str) (h : '\n' ∉ s) : hasNN s = false := by
  induction s with
  | nil => rfl
  | cons c t ih =>
    have hc : c ≠ '\n' := fun hx => h (by rw [← hx]; exact List.mem_cons_self c t)
    rw [hasNN_cons_ne c t hc]
    exact ih (fun hx => h (List.mem_cons_of_mem c hx))

theorem hasNNN_of_not_mem (s : Str) (h : '\n' ∉ s) : hasNNN s = false := by
  induction s with
  | nil => rfl
  | cons c t ih =>
    have hc : c ≠ '\n' := fun hx => h (by rw [← hx]; exact List.mem_cons_self c t)
    rw [hasNNN_cons_ne c t hc]
    exact ih (fun hx => h (List.mem_cons_of_mem c hx))

theorem hasNN_append (a r : Str) (ha : '\n' ∉ a) :
    hasNN (a ++ '\n' :: r) = hasNN ('\n' :: r) := by
  induction a with
  | nil => rfl
  | cons c a2 ih =>
    have hc : c ≠ '\n' := fun hx => ha (by rw [← hx]; exact List.mem_cons_self c a2)
    rw [List.cons_append, hasNN_cons_ne _ _ hc]
    exact ih (fun hx => ha (List.mem_cons_of_mem c hx))

theorem hasNNN_append (a r : Str) (ha : '\n' ∉ a) :
    hasNNN (a ++ '\n' :: r) = hasNNN ('\n' :: r) := by
  induction a with
  | nil => rfl
  | cons c a2 ih =>
    have hc : c ≠ '\n' := fun hx => ha (by rw [← hx]; exact List.mem_cons_self c a2)
    rw [List.cons_append, hasNNN_cons_ne _ _ hc]
    exact ih (fun hx => ha (List.mem_cons_of_mem c hx))

theorem hasNN_tail (c : Char) (s : Str) (h : hasNN (c :: s) = false) : hasNN s = false := by
  cases s with
  | nil => rfl
  | cons d t =>
    rw [show hasNN (c :: d :: t) = ((c == '\n' && d == '\n') || hasNN (d :: t)) from rfl] at h
    exact (Bool.or_eq_false_iff.mp h).2

theorem hasNNN_tail (c : Char) (s : Str) (h : hasNNN (c :: s) = false) : hasNNN s = false := by
  cases s with
  | nil => rfl
  | cons d t =>
    cases t with
    | nil => rfl
    | cons e t2 =>
      rw [show hasNNN (c :: d :: e :: t2)
          = ((c == '\n' && d == '\n' && e == '\n') || hasNNN (d :: e :: t2)) from rfl] at h
      exact (Bool.or_eq_false_iff.mp h).2

theorem head?_joinSep {α : Type} (sep g : List α) (gs : List (List α)) (hg : g ≠ []) :
    (joinSep sep (g :: gs)).head? = g.head? := by
  obtain ⟨c, g2, rfl⟩ := List.exists_cons_of_ne_nil hg
  cases gs with
  | nil => rfl
  | cons b bs =>
    rw [joinSep_cons _ _ _ (List.cons_ne_nil b bs)]
    rfl

theorem getLast?_joinSep {α : Type} (sep : List α) :
    ∀ (gs : List (List α)) (g : List α), gs.getLast? = some g → g ≠ [] →
      (joinSep sep gs).getLast? = g.getLast? := by
  intro gs
  induction gs with
  | nil => intro g hg _; simp at hg
  | cons a as ih =>
    intro g hg hgne
    cases as with
    | nil =>
      simp at hg
      subst hg
      rfl
    | cons b bs =>
      rw [List.getLast?_cons_cons] at hg
      rw [joinSep_cons _ _ _ (List.cons_ne_nil b bs)]
      have hne : joinSep sep (b :: bs) ≠ [] := by
        intro hnil
        have h1 := ih g hg hgne
        rw [hnil] at h1
        exact hgne (List.getLast?_eq_none_iff.mp h1.symm)
      rw [List.getLast?_append_of_ne_nil _ hne]
      exact ih g hg hgne

theorem hasNN_joinSep_lines : ∀ L : List Str, L ≠ [] →
    (∀ l ∈ L, '\n' ∉ l) → (∀ l ∈ L.tail, l ≠ []) →
    hasNN (joinSep ['\n'] L) = false := by
  intro L
  induction L with
  | nil => intro h; exact absurd rfl h
  | cons l L2 ih =>
    intro _ hfree htl
    cases L2 with
    | nil => exact hasNN_of_not_mem l (hfree l (List.mem_cons_self l []))
    | cons b bs =>
      rw [joinSep_cons _ _ _ (List.cons_ne_nil b bs), List.append_assoc]
      rw [show (['\n'] : Str) ++ joinSep ['\n'] (b :: bs)
          = '\n' :: joinSep ['\n'] (b :: bs) from rfl]
      rw [hasNN_append l _ (hfree l (List.mem_cons_self l _))]
      have hb : b ≠ [] := htl b (by simp)
      have hhd : (joinSep ['\n'] (b :: bs)).head? ≠ some '\n' := by
        rw [head?_joinSep _ _ _ hb]
        obtain ⟨c, b2, rfl⟩ := List.exists_cons_of_ne_nil hb
        intro hx
        simp at hx
        exact hfree (c :: b2) (by simp) (by rw [hx]; exact List.mem_cons_self _ _)
      rw [hasNN_nl_cons _ hhd]
      exact ih (List.cons_ne_nil b bs) (fun x hx => hfree x (List.mem_cons_of_mem l hx))
        (fun x hx => htl x (List.mem_cons_of_mem b hx))

theorem hasNNN_joinSep_lines : ∀ L : List Str, L ≠ [] →
    (∀ l ∈ L, '\n' ∉ l) →
    List.Chain' (fun a b => ¬(a = [] ∧ b = [])) L →
    hasNNN (joinSep ['\n'] L) = false := by
  intro L
  induction L with
  | nil => intro h; exact absurd rfl h
  | cons l L2 ih =>
    intro _ hfree hch
    cases L2 with
    | nil => exact hasNNN_of_not_mem l (hfree l (List.mem_cons_self l []))
    | cons b bs =>
      rw [joinSep_cons _ _ _ (List.cons_ne_nil b bs), List.append_assoc]
      rw [show (['\n'] : Str) ++ joinSep ['\n'] (b :: bs)
          = '\n' :: joinSep ['\n'] (b :: bs) from rfl]
      rw [hasNNN_append l _ (hfree l (List.mem_cons_self l _))]
      have hch2 : List.Chain' (fun a b => ¬(a = [] ∧ b = [])) (b :: bs) :=
        (List.chain'_cons'.mp hch).2
      have hIH := ih (List.cons_ne_nil b bs)
        (fun x hx => hfree x (List.mem_cons_of_mem l hx)) hch2
      by_cases hb : b = []
      · subst hb
        cases bs with
        | nil => rfl
        | cons b2 bs2 =>
          have hb2 : b2 ≠ [] := by
            have h1 := (List.chain'_cons'.mp hch2).1
            intro hb2e
            exact h1 b2 rfl ⟨rfl, hb2e⟩
          have hJ2 : joinSep ['\n'] (([] : Str) :: b2 :: bs2)
              = '\n' :: joinSep ['\n'] (b2 :: bs2) := by
            rw [joinSep_cons _ _ _ (List.cons_ne_nil b2 bs2)]
            rfl
          rw [hJ2]
          rw [hJ2] at hIH
          have hhd2 : (joinSep ['\n'] (b2 :: bs2)).head? ≠ some '\n' := by
            rw [head?_joinSep _ _ _ hb2]
            obtain ⟨c, b3, rfl⟩ := List.exists_cons_of_ne_nil hb2
            intro hx
            simp at hx
            exact hfree (c :: b3) (by simp) (by rw [hx]; exact List.mem_cons_self _ _)
          rw [hasNNN_nl_nl _ hhd2]
          exact hIH
      · have hhd : (joinSep ['\n'] (b :: bs)).head? ≠ some '\n' := by
          rw [head?_joinSep _ _ _ hb]
          obtain ⟨c, b2, rfl⟩ := List.exists_cons_of_ne_nil hb
          intro hx
          simp at hx
          exact hfree (c :: b2) (by simp) (by rw [hx]; exact List.mem_cons_self _ _)
        rw [hasNNN_nl_cons _ hhd]
        exact hIH

theorem collapse3Aux_id : ∀ s : Str, hasNNN s = false →
    (collapse3Aux 0 s = s) ∧
    ((∀ t, s ≠ '\n' :: '\n' :: t) → collapse3Aux 1 s = s) ∧
    (s.head? ≠ some '\n' → collapse3Aux 2 s = s) := by
  intro s
  induction s with
  | nil => intro _; exact ⟨rfl, fun _ => rfl, fun _ => rfl⟩
  | cons c t ih =>
    intro h
    have ht : hasNNN t = false := hasNNN_tail c t h
    obtain ⟨ih0, ih1, ih2⟩ := ih ht
    by_cases hc : c = '\n'
    · subst hc
      refine ⟨?_, ?_, ?_⟩
      · rw [show collapse3Aux 0 ('\n' :: t) = '\n' :: collapse3Aux 1 t by
          simp [collapse3Aux]]
        rw [ih1 ?hns]
        case hns =>
          intro t2 ht2
          rw [ht2] at h
          rw [show hasNNN ('\n' :: '\n' :: '\n' :: t2)
              = (('\n' == '\n' && '\n' == '\n' && '\n' == '\n')
                || hasNNN ('\n' :: '\n' :: t2)) from rfl] at h
          simp at h
      · intro hns
        rw [show collapse3Aux 1 ('\n' :: t) = '\n' :: collapse3Aux 2 t by
          simp [collapse3Aux]]
        rw [ih2 ?hh]
        case hh =>
          cases t with
          | nil => simp
          | cons a t2 =>
            intro hx
            simp at hx
            exact hns t2 (by rw [hx])
      · intro hh
        exact absurd rfl hh
    · have e : ∀ k, collapse3Aux k (c :: t) = c :: collapse3Aux 0 t := by
        intro k
        simp [collapse3Aux, hc]
      refine ⟨?_, fun _ => ?_, fun _ => ?_⟩ <;> rw [e, ih0]

theorem collapse3_id (s : Str) (h : hasNNN s = false) : collapse3 s = s :=
  (collapse3Aux_id s h).1

theorem collapseEmptyAux_true_head : ∀ L : List Str,
    ∀ l ∈ (collapseEmptyAux true L).head?, l ≠ [] := by
  intro L
  induction L with
  | nil => intro l hl; simp [collapseEmptyAux] at hl
  | cons a rest ih =>
    intro l hl
    by_cases ha : a = []
    · rw [show collapseEmptyAux true (a :: rest) = collapseEmptyAux true rest by
        simp [collapseEmptyAux, ha]] at hl
      exact ih l hl
    · rw [show collapseEmptyAux true (a :: rest) = a :: collapseEmptyAux false rest by
        simp [collapseEmptyAux, ha]] at hl
      simp at hl
      rw [← hl]
      exact ha

theorem collapseEmptyAux_chain : ∀ (L : List Str) (b : Bool),
    List.Chain' (fun a c => ¬(a = [] ∧ c = [])) (collapseEmptyAux b L) := by
  intro L
  induction L with
  | nil => intro b; simp [collapseEmptyAux]
  | cons a rest ih =>
    intro b
    by_cases ha : a = []
    · cases b with
      | true =>
        rw [show collapseEmptyAux true (a :: rest) = collapseEmptyAux true rest by
          simp [collapseEmptyAux, ha]]
        exact ih true
      | false =>
        rw [show collapseEmptyAux false (a :: rest) = a :: collapseEmptyAux true rest by
          simp [collapseEmptyAux, ha]]
        refine List.chain'_cons'.mpr ⟨?_, ih true⟩
        intro y hy hcon
        exact collapseEmptyAux_true_head rest y hy hcon.2
    · rw [show collapseEmptyAux b (a :: rest) = a :: collapseEmptyAux false rest by
        cases b <;> simp [collapseEmptyAux, ha]]
      refine List.chain'_cons'.mpr ⟨?_, ih false⟩
      intro y hy hcon
      exact ha hcon.1

theorem collapseEmptyAux_id : ∀ L : List Str,
    List.Chain' (fun a c => ¬(a = [] ∧ c = [])) L →
    (collapseEmptyAux false L = L) ∧
    ((∀ l ∈ L.head?, l ≠ []) → collapseEmptyAux true L = L) := by
  intro L
  induction L with
  | nil => intro _; exact ⟨rfl, fun _ => rfl⟩
  | cons a rest ih =>
    intro hch
    obtain ⟨hhd, hch2⟩ := List.chain'_cons'.mp hch
    obtain ⟨ih0, ih1⟩ := ih hch2
    by_cases ha : a = []
    · subst ha
      constructor
      · have hr : ∀ l ∈ rest.head?, l ≠ [] := by
          intro y hy hye
          exact hhd y hy ⟨rfl, hye⟩
        rw [show collapseEmptyAux false (([] : Str) :: rest)
            = [] :: collapseEmptyAux true rest by simp [collapseEmptyAux]]
        rw [ih1 hr]
      · intro hhead
        exact absurd rfl (hhead [] rfl)
    · constructor
      · rw [show collapseEmptyAux false (a :: rest) = a :: collapseEmptyAux false rest by
          simp [collapseEmptyAux, ha]]
        rw [ih0]
      · intro _
        rw [show collapseEmptyAux true (a :: rest) = a :: collapseEmptyAux false rest by
          simp [collapseEmptyAux, ha]]
        rw [ih0]

theorem chain'_of_ne_nil (L : List Str) (h : ∀ l ∈ L, l ≠ []) :
    List.Chain' (fun a c => ¬(a = [] ∧ c = [])) L := by
  induction L with
  | nil => exact List.chain'_nil
  | cons l rest ih =>
    refine List.chain'_cons'.mpr ⟨?_, ih (fun x hx => h x (List.mem_cons_of_mem l hx))⟩
    intro y _ hy
    exact h l (List.mem_cons_self l rest) hy.1

theorem map_eq_self_of {α : Type} (f : α → α) :
    ∀ l : List α, (∀ a ∈ l, f a = a) → l.map f = l := by
  intro l
  induction l with
  | nil => intro _; rfl
  | cons a t ih =>
    intro h
    rw [List.map_cons, h a (List.mem_cons_self a t),
      ih (fun x hx => h x (List.mem_cons_of_mem a hx))]

theorem mem_tail_filter {α : Type} (q : α → Bool) :
    ∀ l : List α, ∀ p ∈ (l.filter q).tail, p ∈ l.tail := by
  intro l
  induction l with
  | nil => intro p hp; simp at hp
  | cons a t ih =>
    intro p hp
    by_cases hqa : q a = true
    · rw [List.filter_cons_of_pos hqa, List.tail_cons] at hp
      rw [List.tail_cons]
      exact List.mem_of_mem_filter hp
    · rw [List.filter_cons_of_neg (by simpa using hqa)] at hp
      rw [List.tail_cons]
      exact (List.tail_sublist t).subset (ih p hp)

theorem mem_dropLast_filter {α : Type} (q : α → Bool) :
    ∀ l : List α, ∀ p ∈ (l.filter q).dropLast, p ∈ l.dropLast := by
  intro l
  induction l with
  | nil => intro p hp; simp at hp
  | cons a t ih =>
    intro p hp
    by_cases hqa : q a = true
    · rw [List.filter_cons_of_pos hqa] at hp
      rcases hF : List.filter q t with _ | ⟨f0, F2⟩
      · rw [hF] at hp
        simp at hp
      · rw [hF, List.dropLast_cons₂] at hp
        have htne : t ≠ [] := by
          intro hte
          rw [hte] at hF
          simp at hF
        obtain ⟨b, t2, rfl⟩ := List.exists_cons_of_ne_nil htne
        rw [List.dropLast_cons₂]
        rcases List.mem_cons.mp hp with rfl | hin
        · exact List.mem_cons_self p _
        · have := ih p (by rw [hF]; exact hin)
          exact List.mem_cons_of_mem a this
    · rw [List.filter_cons_of_neg (by simpa using hqa)] at hp
      have := ih p hp
      have htne : t ≠ [] := by
        intro hte
        rw [hte] at this
        simp at this
      obtain ⟨b, t2, rfl⟩ := List.exists_cons_of_ne_nil htne
      rw [List.dropLast_cons₂]
      exact List.mem_cons_of_mem a this

theorem pyWordsAux_facts : ∀ (l cur : Str), ∀ w ∈ pyWordsAux cur l,
    w ≠ [] ∧ (∀ c ∈ w, c ∈ cur ++ l) ∧
      ((∀ c ∈ cur, isWS c = false) → ∀ c ∈ w, isWS c = false) := by
  intro l
  induction l with
  | nil =>
    intro cur w hw
    by_cases hc : cur = []
    · rw [show pyWordsAux cur [] = [] by simp [pyWordsAux, hc]] at hw
      simp at hw
    · rw [show pyWordsAux cur [] = [cur] by simp [pyWordsAux, hc]] at hw
      simp at hw
      subst hw
      exact ⟨hc, fun c hcc => by simp [hcc], fun h => h⟩
  | cons a t ih =>
    intro cur w hw
    by_cases ha : isWS a = true
    · by_cases hc : cur = []
      · rw [show pyWordsAux cur (a :: t) = pyWordsAux [] t by
          simp [pyWordsAux, ha, hc]] at hw
        obtain ⟨h1, h2, h3⟩ := ih [] w hw
        refine ⟨h1, ?_, fun _ => h3 (by simp)⟩
        intro c hcw
        have := h2 c hcw
        simp at this
        simp [this]
      · rw [show pyWordsAux cur (a :: t) = cur :: pyWordsAux [] t by
          simp [pyWordsAux, ha, hc]] at hw
        rcases List.mem_cons.mp hw with rfl | hin
        · exact ⟨hc, fun c hcc => by simp [hcc], fun h => h⟩
        · obtain ⟨h1, h2, h3⟩ := ih [] w hin
          refine ⟨h1, ?_, fun _ => h3 (by simp)⟩
          intro c hcw
          have := h2 c hcw
          simp at this
          simp [this]
    · rw [show pyWordsAux cur (a :: t) = pyWordsAux (cur ++ [a]) t by
        simp [pyWordsAux, ha]] at hw
      obtain ⟨h1, h2, h3⟩ := ih (cur ++ [a]) w hw
      refine ⟨h1, ?_, ?_⟩
      · intro c hcw
        have := h2 c hcw
        simp at this ⊢
        tauto
      · intro hcws
        refine h3 ?_
        intro c hcc
        simp at hcc
        rcases hcc with hcc | rfl
        · exact hcws c hcc
        · simp only [Bool.not_eq_true] at ha
          exact ha

theorem pyWordsAux_ne_nil_of_cur : ∀ (l cur : Str), cur ≠ [] → pyWordsAux cur l ≠ [] := by
  intro l
  induction l with
  | nil => intro cur hc; simp [pyWordsAux, hc]
  | cons a t ih =>
    intro cur hc
    by_cases ha : isWS a = true
    · rw [show pyWordsAux cur (a :: t) = cur :: pyWordsAux [] t by
        simp [pyWordsAux, ha, hc]]
      simp
    · rw [show pyWordsAux cur (a :: t) = pyWordsAux (cur ++ [a]) t by
        simp [pyWordsAux, ha]]
      exact ih (cur ++ [a]) (by simp)

theorem pyWordsAux_ne_nil : ∀ (l : Str) (c0 : Char), c0 ∈ l → isWS c0 = false →
    ∀ cur : Str, pyWordsAux cur l ≠ [] := by
  intro l
  induction l with
  | nil => intro c0 hc0; simp at hc0
  | cons a t ih =>
    intro c0 hc0 hws cur
    by_cases ha : isWS a = true
    · have hc0t : c0 ∈ t := by
        rcases List.mem_cons.mp hc0 with rfl | h
        · rw [hws] at ha
          exact absurd ha (by simp)
        · exact h
      by_cases hc : cur = []
      · rw [show pyWordsAux cur (a :: t) = pyWordsAux [] t by simp [pyWordsAux, ha, hc]]
        exact ih c0 hc0t hws []
      · rw [show pyWordsAux cur (a :: t) = cur :: pyWordsAux [] t by
          simp [pyWordsAux, ha, hc]]
        simp
    · rw [show pyWordsAux cur (a :: t) = pyWordsAux (cur ++ [a]) t by
        simp [pyWordsAux, ha]]
      exact pyWordsAux_ne_nil_of_cur t (cur ++ [a]) (by simp)

theorem pyWordsAux_no_ws : ∀ (w cur : Str), w ≠ [] → (∀ c ∈ w, isWS c = false) →
    pyWordsAux cur w = [cur ++ w] := by
  intro w
  induction w with
  | nil => intro cur h; exact absurd rfl h
  | cons a t ih =>
    intro cur _ hws
    have ha : isWS a = false := hws a (List.mem_cons_self a t)
    rw [show pyWordsAux cur (a :: t) = pyWordsAux (cur ++ [a]) t by simp [pyWordsAux, ha]]
    cases t with
    | nil =>
      rw [show pyWordsAux (cur ++ [a]) [] = [cur ++ [a]] by simp [pyWordsAux]]
    | cons b t2 =>
      rw [ih (cur ++ [a]) (List.cons_ne_nil b t2)
        (fun c hc => hws c (List.mem_cons_of_mem a hc))]
      simp

theorem wrapLoop_ne_nil (limit : Nat) : ∀ (ws cur : List Str) (len : Nat),
    (ws ≠ [] ∨ cur ≠ []) → wrapLoop limit ws cur len ≠ [] := by
  intro ws
  induction ws with
  | nil =>
    intro cur len h
    rcases h with h | h
    · exact absurd rfl h
    · simp [wrapLoop, h]
  | cons w ws2 ih =>
    intro cur len _
    by_cases hfit : len + w.length + 1 ≤ limit
    · rw [show wrapLoop limit (w :: ws2) cur len
          = wrapLoop limit ws2 (cur ++ [w]) (len + w.length + 1) by simp [wrapLoop, hfit]]
      exact ih _ _ (Or.inr (by simp))
    · by_cases hc : cur = []
      · rw [show wrapLoop limit (w :: ws2) cur len = wrapLoop limit ws2 [w] w.length by
          simp [wrapLoop, hfit, hc]]
        exact ih _ _ (Or.inr (by simp))
      · rw [show wrapLoop limit (w :: ws2) cur len
            = joinSep [' '] cur :: wrapLoop limit ws2 [w] w.length by
            simp [wrapLoop, hfit, hc]]
        simp

theorem wrapLoop_lines_shape (limit : Nat) (W : List Str) :
    ∀ (ws cur : List Str) (len : Nat),
      (∀ w ∈ ws, w ∈ W) → (∀ w ∈ cur, w ∈ W) →
      ∀ L ∈ wrapLoop limit ws cur len,
        ∃ g, g ≠ [] ∧ (∀ w ∈ g, w ∈ W) ∧ L = joinSep [' '] g := by
  intro ws
  induction ws with
  | nil =>
    intro cur len _ hcur L hL
    by_cases hc : cur = []
    · simp [wrapLoop, hc] at hL
    · rw [show wrapLoop limit [] cur len = [joinSep [' '] cur] by simp [wrapLoop, hc]] at hL
      simp at hL
      exact ⟨cur, hc, hcur, hL⟩
  | cons w ws2 ih =>
    intro cur len hws hcur L hL
    have hwW : w ∈ W := hws w (List.mem_cons_self _ _)
    have hws2 : ∀ x ∈ ws2, x ∈ W := fun x hx => hws x (List.mem_cons_of_mem _ hx)
    by_cases hfit : len + w.length + 1 ≤ limit
    · rw [show wrapLoop limit (w :: ws2) cur len
          = wrapLoop limit ws2 (cur ++ [w]) (len + w.length + 1) by
          simp [wrapLoop, hfit]] at hL
      refine ih _ _ hws2 ?_ L hL
      intro x hx
      rcases List.mem_append.mp hx with h | h
      · exact hcur x h
      · simp at h
        rw [h]
        exact hwW
    · by_cases hc : cur = []
      · rw [show wrapLoop limit (w :: ws2) cur len = wrapLoop limit ws2 [w] w.length by
          simp [wrapLoop, hfit, hc]] at hL
        refine ih _ _ hws2 ?_ L hL
        intro x hx
        simp at hx
        rw [hx]
        exact hwW
      · rw [show wrapLoop limit (w :: ws2) cur len
            = joinSep [' '] cur :: wrapLoop limit ws2 [w] w.length by
            simp [wrapLoop, hfit, hc]] at hL
        rcases List.mem_cons.mp hL with rfl | hin
        · exact ⟨cur, hc, hcur, rfl⟩
        · refine ih _ _ hws2 ?_ L hin
          intro x hx
          simp at hx
          rw [hx]
          exact hwW

theorem splitOnChar_cons_ne (sep c : Char) (t : Str) (h : c ≠ sep) (q : Str)
    (qs : List Str) (hq : splitOnChar sep t = q :: qs) :
    splitOnChar sep (c :: t) = (c :: q) :: qs := by
  simp [splitOnChar, h, hq]

theorem splitOnChar_head_cons (sep c : Char) (t : Str) (h : c ≠ sep) :
    ∃ q qs, splitOnChar sep (c :: t) = (c :: q) :: qs := by
  obtain ⟨q, qs, hq⟩ := List.exists_cons_of_ne_nil (splitOnChar_ne_nil sep t)
  exact ⟨q, qs, by simp [splitOnChar, h, hq]⟩

theorem lines_head_ne_empty (q : Str) (hq : q ≠ []) (h : q.head? ≠ some '\n') :
    (splitOnChar '\n' q).head? ≠ some [] := by
  obtain ⟨c, t, rfl⟩ := List.exists_cons_of_ne_nil hq
  have hc : c ≠ '\n' := fun hx => h (by rw [hx]; rfl)
  obtain ⟨q2, qs, hsp⟩ := splitOnChar_head_cons '\n' c t hc
  rw [hsp]
  simp

theorem lines_getLast_ne_empty : ∀ q : Str, q ≠ [] → q.getLast? ≠ some '\n' →
    (splitOnChar '\n' q).getLast? ≠ some [] := by
  intro q
  induction q with
  | nil => intro h; exact absurd rfl h
  | cons c t ih =>
    intro _ hlast
    cases t with
    | nil =>
      have hc : c ≠ '\n' := fun hx => hlast (by rw [hx]; rfl)
      rw [splitOnChar_no_sep '\n' [c] (by
        intro hm
        rcases List.mem_cons.mp hm with hm | hm
        · exact hc hm.symm
        · simp at hm)]
      simp
    | cons d t2 =>
      have hlast2 : (d :: t2).getLast? ≠ some '\n' := by
        rw [List.getLast?_cons_cons] at hlast
        exact hlast
      have iht := ih (List.cons_ne_nil d t2) hlast2
      obtain ⟨q2, qs, hq⟩ := List.exists_cons_of_ne_nil (splitOnChar_ne_nil '\n' (d :: t2))
      by_cases hc : c = '\n'
      · rw [show splitOnChar '\n' (c :: d :: t2) = [] :: splitOnChar '\n' (d :: t2) by
          simp [splitOnChar, hc]]
        rw [hq, List.getLast?_cons_cons]
        rw [hq] at iht
        exact iht
      · rw [splitOnChar_cons_ne '\n' c (d :: t2) hc q2 qs hq]
        cases qs with
        | nil =>
          rw [hq] at iht
          simp
        | cons x xs =>
          rw [List.getLast?_cons_cons]
          rw [hq, List.getLast?_cons_cons] at iht
          exact iht

theorem splitNN_head_empty (d : Char) (t : Str)
    (h : (splitNN (d :: t)).head? = some []) : d = '\n' := by
  cases t with
  | nil => simp [splitNN] at h
  | cons e t2 =>
    by_cases hsep : d = '\n' ∧ e = '\n'
    · exact hsep.1
    · obtain ⟨q, qs, hq⟩ := List.exists_cons_of_ne_nil (splitNN_ne_nil (e :: t2))
      rw [show splitNN (d :: e :: t2) = (d :: q) :: qs by simp [splitNN, hsep, hq]] at h
      simp at h

theorem splitNN_nonlast_no_nl : ∀ s : Str, ∀ p ∈ (splitNN s).dropLast,
    p.getLast? ≠ some '\n' := by
  intro s
  induction s using splitNN.induct with
  | case1 => intro p hp; simp [splitNN] at hp
  | case2 c => intro p hp; simp [splitNN] at hp
  | case3 c d t h ih =>
    intro p hp
    rw [show splitNN (c :: d :: t) = [] :: splitNN t by simp [splitNN, h]] at hp
    obtain ⟨q, qs, hq⟩ := List.exists_cons_of_ne_nil (splitNN_ne_nil t)
    rw [hq, List.dropLast_cons₂] at hp
    rcases List.mem_cons.mp hp with rfl | hin
    · simp
    · exact ih p (by rw [hq]; exact hin)
  | case4 c d t h hnil ih => exact absurd hnil (splitNN_ne_nil (d :: t))
  | case5 c d t h p ps hps ih =>
    intro q hq
    rw [show splitNN (c :: d :: t) = (c :: p) :: ps by simp [splitNN, h, hps]] at hq
    cases ps with
    | nil => simp at hq
    | cons r rs =>
      rw [List.dropLast_cons₂] at hq
      rcases List.mem_cons.mp hq with rfl | hin
      · cases p with
        | nil =>
          have hd : d = '\n' := splitNN_head_empty d t (by rw [hps]; rfl)
          intro hlast
          simp at hlast
          exact h ⟨hlast, hd⟩
        | cons e p2 =>
          rw [List.getLast?_cons_cons]
          exact ih (e :: p2) (by rw [hps, List.dropLast_cons₂]; exact List.mem_cons_self _ _)
      · exact ih q (by rw [hps, List.dropLast_cons₂]; exact List.mem_cons_of_mem p hin)

theorem splitNN_tail_no_nl : ∀ s : Str, hasNNN s = false →
    ∀ p ∈ (splitNN s).tail, p.head? ≠ some '\n' := by
  intro s
  induction s using splitNN.induct with
  | case1 => intro _ p hp; simp [splitNN] at hp
  | case2 c => intro _ p hp; simp [splitNN] at hp
  | case3 c d t h ih =>
    intro hN p hp
    obtain ⟨hc, hd⟩ := h
    subst hc
    subst hd
    rw [show splitNN ('\n' :: '\n' :: t) = [] :: splitNN t by simp [splitNN]] at hp
    rw [List.tail_cons] at hp
    have hNt : hasNNN t = false := hasNNN_tail '\n' t (hasNNN_tail '\n' ('\n' :: t) hN)
    obtain ⟨q, qs, hq⟩ := List.exists_cons_of_ne_nil (splitNN_ne_nil t)
    rw [hq] at hp
    rcases List.mem_cons.mp hp with rfl | hin
    · cases t with
      | nil =>
        have h1 : p = [] := by
          rw [show splitNN ([] : Str) = [[]] from rfl] at hq
          exact ((List.cons_eq_cons.mp hq).1).symm
        rw [h1]
        simp
      | cons e t2 =>
        rcases splitNN_head_piece e t2 with hcpc | ⟨p2, hcpc⟩
        · rw [hq] at hcpc
          simp at hcpc
          rw [hcpc]
          simp
        · rw [hq] at hcpc
          simp at hcpc
          rw [hcpc]
          intro hx
          simp at hx
          subst hx
          rw [show hasNNN ('\n' :: '\n' :: '\n' :: t2)
              = (('\n' == '\n' && '\n' == '\n' && '\n' == '\n')
                || hasNNN ('\n' :: '\n' :: t2)) from rfl] at hN
          simp at hN
    · exact ih hNt p (by rw [hq, List.tail_cons]; exact hin)
  | case4 c d t h hnil ih => exact absurd hnil (splitNN_ne_nil (d :: t))
  | case5 c d t h p ps hps ih =>
    intro hN q hq
    rw [show splitNN (c :: d :: t) = (c :: p) :: ps by simp [splitNN, h, hps]] at hq
    rw [List.tail_cons] at hq
    exact ih (hasNNN_tail c (d :: t) hN) q (by rw [hps, List.tail_cons]; exact hq)

theorem joinSep_cons_head {α : Type} (sep : List α) (c : α) (p : List α)
    (ps : List (List α)) :
    joinSep sep ((c :: p) :: ps) = c :: joinSep sep (p :: ps) := by
  cases ps with
  | nil => rfl
  | cons r rs =>
    rw [joinSep_cons _ _ _ (List.cons_ne_nil r rs), joinSep_cons _ _ _ (List.cons_ne_nil r rs)]
    simp

theorem joinNN_splitNN : ∀ s : Str, joinSep ['\n', '\n'] (splitNN s) = s := by
  intro s
  induction s using splitNN.induct with
  | case1 => rfl
  | case2 c => rfl
  | case3 c d t h ih =>
    obtain ⟨hc, hd⟩ := h
    subst hc
    subst hd
    rw [show splitNN ('\n' :: '\n' :: t) = [] :: splitNN t by simp [splitNN]]
    rw [joinSep_cons _ _ _ (splitNN_ne_nil t)]
    simp [ih]
  | case4 c d t h hnil ih => exact absurd hnil (splitNN_ne_nil (d :: t))
  | case5 c d t h p ps hps ih =>
    rw [show splitNN (c :: d :: t) = (c :: p) :: ps by simp [splitNN, h, hps]]
    rw [joinSep_cons_head]
    rw [← hps, ih]

theorem splitOnChar_append_any (sep : Char) : ∀ (A B : Str),
    splitOnChar sep (A ++ sep :: B) = splitOnChar sep A ++ splitOnChar sep B := by
  intro A B
  induction A with
  | nil =>
    rw [List.nil_append]
    rw [show splitOnChar sep (sep :: B) = [] :: splitOnChar sep B by simp [splitOnChar]]
    rfl
  | cons c A2 ih =>
    by_cases hc : c = sep
    · rw [show splitOnChar sep (c :: A2) = [] :: splitOnChar sep A2 by
        simp [splitOnChar, hc]]
      rw [List.cons_append]
      rw [show splitOnChar sep (c :: (A2 ++ sep :: B))
          = [] :: splitOnChar sep (A2 ++ sep :: B) by simp [splitOnChar, hc]]
      rw [ih]
      rfl
    · obtain ⟨q, qs, hq⟩ := List.exists_cons_of_ne_nil (splitOnChar_ne_nil sep A2)
      rw [splitOnChar_cons_ne sep c A2 hc q qs hq]
      rw [List.cons_append]
      obtain ⟨q2, qs2, hq2⟩ := List.exists_cons_of_ne_nil (splitOnChar_ne_nil sep (A2 ++ sep :: B))
      rw [splitOnChar_cons_ne sep c (A2 ++ sep :: B) hc q2 qs2 hq2]
      rw [ih, hq] at hq2
      obtain ⟨h1, h2⟩ := List.cons_eq_cons.mp hq2
      rw [← h1, ← h2]
      rfl

theorem lines_joinNN : ∀ ps : List Str, ps ≠ [] →
    splitOnChar '\n' (joinSep ['\n', '\n'] ps)
      = joinSep [([] : Str)] (ps.map (splitOnChar '\n')) := by
  intro ps
  induction ps with
  | nil => intro h; exact absurd rfl h
  | cons p ps2 ih =>
    intro _
    cases ps2 with
    | nil => rfl
    | cons r rs =>
      rw [joinSep_cons _ _ _ (List.cons_ne_nil r rs)]
      rw [List.append_assoc]
      rw [show (['\n', '\n'] : Str) ++ joinSep ['\n', '\n'] (r :: rs)
          = '\n' :: '\n' :: joinSep ['\n', '\n'] (r :: rs) from rfl]
      rw [splitOnChar_append_any]
      rw [show splitOnChar '\n' ('\n' :: joinSep ['\n', '\n'] (r :: rs))
          = [] :: splitOnChar '\n' (joinSep ['\n', '\n'] (r :: rs)) by simp [splitOnChar]]
      rw [ih (List.cons_ne_nil r rs)]
      rw [show joinSep [([] : Str)] (List.map (splitOnChar '\n') (p :: r :: rs))
          = splitOnChar '\n' p ++ [([] : Str)]
            ++ joinSep [([] : Str)] (List.map (splitOnChar '\n') (r :: rs)) by
          rw [List.map_cons]
          exact joinSep_cons _ _ _ (by simp)]
      simp

theorem chain_lines_of_no_NN : ∀ s : Str, hasNN s = false →
    List.Chain' (fun a b => ¬(a = [] ∧ b = [])) (splitOnChar '\n' s) ∨
      splitOnChar '\n' s = [[], []] := by
  intro s
  induction s with
  | nil =>
    intro _
    left
    simp [splitOnChar]
  | cons c t ih =>
    intro h
    have ht := hasNN_tail c t h
    by_cases hc : c = '\n'
    · cases t with
      | nil =>
        right
        rw [show splitOnChar '\n' [c] = [] :: splitOnChar '\n' ([] : Str) by
          simp [splitOnChar, hc]]
        rfl
      | cons d t2 =>
        have hd : d ≠ '\n' := by
          intro hx
          rw [show hasNN (c :: d :: t2) = ((c == '\n' && d == '\n') || hasNN (d :: t2))
            from rfl] at h
          simp [hc, hx] at h
        obtain ⟨q, qs, hq⟩ := List.exists_cons_of_ne_nil (splitOnChar_ne_nil '\n' t2)
        left
        rw [show splitOnChar '\n' (c :: d :: t2) = [] :: splitOnChar '\n' (d :: t2) by
          simp [splitOnChar, hc]]
        rw [splitOnChar_cons_ne '\n' d t2 hd q qs hq]
        refine List.chain'_cons'.mpr ⟨?_, ?_⟩
        · intro y hy hcon
          simp at hy
          rw [← hy] at hcon
          exact absurd hcon.2 (List.cons_ne_nil d q)
        · rcases ih ht with hch | hbad
          · rw [splitOnChar_cons_ne '\n' d t2 hd q qs hq] at hch
            exact hch
          · rw [splitOnChar_cons_ne '\n' d t2 hd q qs hq] at hbad
            obtain ⟨h1, h2⟩ := List.cons_eq_cons.mp hbad
            exact absurd h1 (List.cons_ne_nil d q)
    · obtain ⟨q, qs, hq⟩ := List.exists_cons_of_ne_nil (splitOnChar_ne_nil '\n' t)
      left
      rw [splitOnChar_cons_ne '\n' c t hc q qs hq]
      refine List.chain'_cons'.mpr ⟨?_, ?_⟩
      · intro y hy hcon
        exact absurd hcon.1 (List.cons_ne_nil c q)
      · rcases ih ht with hch | hbad
        · rw [hq] at hch
          exact (List.chain'_cons'.mp hch).2
        · rw [hq] at hbad
          obtain ⟨h1, h2⟩ := List.cons_eq_cons.mp hbad
          rw [h2]
          simp

theorem chain'_joinSep : ∀ gs : List (List Str),
    (∀ g ∈ gs, g ≠ []) →
    (∀ g ∈ gs, List.Chain' (fun a c => ¬(a = [] ∧ c = [])) g) →
    (∀ g ∈ gs.tail, g.head? ≠ some []) →
    (∀ g ∈ gs.dropLast, g.getLast? ≠ some []) →
    List.Chain' (fun a c => ¬(a = [] ∧ c = [])) (joinSep [([] : Str)] gs) := by
  intro gs
  induction gs with
  | nil =>
    intro _ _ _ _
    exact List.chain'_nil
  | cons g gs2 ih =>
    intro hne hch htl hdl
    cases gs2 with
    | nil => exact hch g (List.mem_cons_self g [])
    | cons g2 gs3 =>
      rw [joinSep_cons _ _ _ (List.cons_ne_nil g2 gs3), List.append_assoc]
      rw [show [([] : Str)] ++ joinSep [([] : Str)] (g2 :: gs3)
          = ([] : Str) :: joinSep [([] : Str)] (g2 :: gs3) from rfl]
      refine List.chain'_append.mpr ⟨hch g (List.mem_cons_self g _), ?_, ?_⟩
      · refine List.chain'_cons'.mpr ⟨?_, ?_⟩
        · intro y hy hcon
          rw [head?_joinSep _ _ _ (hne g2 (by simp))] at hy
          rw [hcon.2] at hy
          exact htl g2 (by simp) hy
        · refine ih (fun x hx => hne x (List.mem_cons_of_mem g hx))
            (fun x hx => hch x (List.mem_cons_of_mem g hx))
            (fun x hx => htl x (List.mem_cons_of_mem g2 hx))
            (fun x hx => hdl x (by
              rw [List.dropLast_cons₂]
              exact List.mem_cons_of_mem g hx))
      · intro x hx y hy hcon
        have hgl := hdl g (by rw [List.dropLast_cons₂]; exact List.mem_cons_self g _)
        rw [hcon.1] at hx
        exact hgl hx

theorem wrap_line_facts (g : List Str) (hg : g ≠ [])
    (hne : ∀ w ∈ g, w ≠ []) (hws : ∀ w ∈ g, ∀ c ∈ w, isWS c = false) :
    joinSep [' '] g ≠ [] ∧
    (∀ c ∈ (joinSep [' '] g).head?, isWS c = false) ∧
    (∀ c ∈ (joinSep [' '] g).getLast?, isWS c = false) ∧
    (∀ c ∈ joinSep [' '] g, isWS c = false ∨ c = ' ') := by
  obtain ⟨w1, g2, rfl⟩ := List.exists_cons_of_ne_nil hg
  have hw1ne : w1 ≠ [] := hne w1 (List.mem_cons_self _ _)
  obtain ⟨c1, w1t, hc1⟩ := List.exists_cons_of_ne_nil hw1ne
  have hhead : (joinSep [' '] (w1 :: g2)).head? = some c1 := by
    rw [head?_joinSep _ _ _ hw1ne, hc1]
    rfl
  refine ⟨?_, ?_, ?_, ?_⟩
  · intro he
    rw [he] at hhead
    simp at hhead
  · intro c hc
    rw [hhead] at hc
    simp at hc
    rw [← hc]
    exact hws w1 (List.mem_cons_self _ _) c1 (by rw [hc1]; exact List.mem_cons_self _ _)
  · have hgl : (w1 :: g2).getLast? ≠ none := by
      intro hnone
      exact (List.cons_ne_nil w1 g2) (List.getLast?_eq_none_iff.mp hnone)
    rcases hk : (w1 :: g2).getLast? with _ | gk
    · exact absurd hk hgl
    · have hgkmem : gk ∈ w1 :: g2 := List.mem_of_mem_getLast? (by simp [hk])
      rw [getLast?_joinSep _ _ gk hk (hne gk hgkmem)]
      intro c hc
      exact hws gk hgkmem c (List.mem_of_mem_getLast? hc)
  · intro c hc
    rcases mem_joinSep [' '] (w1 :: g2) c hc with hsp | ⟨w, hwmem, hcw⟩
    · right
      simpa using hsp
    · left
      exact hws w hwmem c hcw

theorem paraFacts (p : Str)
    (h1 : pyStrip p ≠ [])
    (h2 : hasNN p = false)
    (h3 : ∀ l ∈ splitOnChar '\n' p, pyStrip l = l)
    (hr : ∀ l ∈ splitOnChar '\n' p, '\r' ∉ l) :
    ∀ q, processPara 30 p = q →
      pyStrip q ≠ [] ∧ hasNN q = false ∧ processPara 30 q = q ∧
      (∀ l ∈ splitOnChar '\n' q, pyStrip l = l ∧ '\r' ∉ l) ∧
      List.Chain' (fun a b => ¬(a = [] ∧ b = [])) (splitOnChar '\n' q) ∧
      (p.head? ≠ some '\n' → q.head? ≠ some '\n') ∧
      (p.getLast? ≠ some '\n' → q.getLast? ≠ some '\n') := by
  intro q hq
  have hjp := joinSep_splitOnChar '\n' p
  rcases hls : splitOnChar '\n' p with _ | ⟨l, ls⟩
  · exact absurd hls (splitOnChar_ne_nil '\n' p)
  · rw [hls] at hjp
    cases ls with
    | cons l2 ls2 =>
      have hqp : processPara 30 p = p := by
        rw [processPara, hls]
        exact hjp
      have hq2 : q = p := by rw [← hq, hqp]
      subst hq2
      refine ⟨h1, h2, hqp, ?_, ?_, fun h => h, fun h => h⟩
      · intro x hx
        exact ⟨h3 x hx, hr x hx⟩
      · rcases chain_lines_of_no_NN q h2 with hch | hbad
        · exact hch
        · exfalso
          rw [hls] at hbad
          obtain ⟨he1, he2⟩ := List.cons_eq_cons.mp hbad
          obtain ⟨he3, he4⟩ := List.cons_eq_cons.mp he2
          subst he1
          subst he3
          subst he4
          have hp : q = ['\n'] := by
            rw [← hjp]
            rfl
          exact h1 (by rw [hp]; decide)
    | nil =>
      have hlp : l = p := hjp
      by_cases hlong : 30 * 2 < l.length
      · -- re-wrap branch
        have hpp : processPara 30 p
            = joinSep ['\n'] (wrapLoop (30 * 2) (pyWords l) [] 0) := by
          have hred2 : processPara 30 p
              = if 30 * 2 < l.length then
                  joinSep ['\n'] (wrapLoop (30 * 2) (pyWords l) [] 0)
                else joinSep ['\n'] [l] := by
            rw [processPara, hls]
          rw [hred2, if_pos hlong]
        have hstrip : pyStrip l = l := h3 l (by rw [hls]; exact List.mem_cons_self l [])
        have hlnfree : '\n' ∉ l :=
          mem_splitOnChar_no_sep '\n' p l (by rw [hls]; exact List.mem_cons_self l [])
        have hlne : l ≠ [] := by
          intro he
          rw [he] at hlong
          simp at hlong
        obtain ⟨c0, l0, hc0l⟩ := List.exists_cons_of_ne_nil hlne
        have hheadl : isWS c0 = false := by
          have hh := pyStrip_head_not_ws l
          rw [hstrip] at hh
          exact hh c0 (by rw [hc0l]; rfl)
        have hWne : pyWords l ≠ [] :=
          pyWordsAux_ne_nil l c0 (by rw [hc0l]; exact List.mem_cons_self _ _) hheadl []
        have hwf : ∀ w ∈ pyWords l,
            w ≠ [] ∧ (∀ c ∈ w, c ∈ l) ∧ (∀ c ∈ w, isWS c = false) := by
          intro w hw
          obtain ⟨hw1, hw2, hw3⟩ := pyWordsAux_facts l [] w hw
          exact ⟨hw1, fun c hc => by simpa using hw2 c hc, hw3 (by simp)⟩
        obtain ⟨W, hW⟩ : ∃ W, wrapLoop (30 * 2) (pyWords l) [] 0 = W := ⟨_, rfl⟩
        rw [hW] at hpp
        have hred : q = joinSep ['\n'] W := by rw [← hq, hpp]
        have hWne2 : W ≠ [] := by
          rw [← hW]
          exact wrapLoop_ne_nil _ _ _ _ (Or.inl hWne)
        have hlinefacts : ∀ L ∈ W, L ≠ [] ∧ (∀ c ∈ L.head?, isWS c = false) ∧
            (∀ c ∈ L.getLast?, isWS c = false) ∧ (∀ c ∈ L, isWS c = false ∨ c = ' ') := by
          intro L hL
          rw [← hW] at hL
          obtain ⟨g, hg1, hg2, hg3⟩ := wrapLoop_lines_shape (30 * 2) (pyWords l)
            (pyWords l) [] 0 (fun w hw => hw) (by simp) L hL
          subst hg3
          exact wrap_line_facts g hg1 (fun w hw => (hwf w (hg2 w hw)).1)
            (fun w hw => (hwf w (hg2 w hw)).2.2)
        have hWnonempty : ∀ L ∈ W, L ≠ [] := fun L hL => (hlinefacts L hL).1
        have hWnl : ∀ L ∈ W, '\n' ∉ L := by
          intro L hL hmem
          rcases (hlinefacts L hL).2.2.2 '\n' hmem with hws | hsp
          · rw [isWS_nl] at hws
            exact absurd hws (by simp)
          · exact absurd hsp (by decide)
        have hWcr : ∀ L ∈ W, '\r' ∉ L := by
          intro L hL hmem
          rcases (hlinefacts L hL).2.2.2 '\r' hmem with hws | hsp
          · rw [isWS_cr] at hws
            exact absurd hws (by simp)
          · exact absurd hsp (by decide)
        have hWstrip : ∀ L ∈ W, pyStrip L = L := fun L hL =>
          pyStrip_eq_self L (hlinefacts L hL).2.1 (hlinefacts L hL).2.2.1
        have hlq : splitOnChar '\n' q = W := by
          rw [hred]
          exact splitOnChar_join_inv '\n' W hWne2 hWnl
        obtain ⟨L1, W2, hW12⟩ := List.exists_cons_of_ne_nil hWne2
        have hL1mem : L1 ∈ W := by rw [hW12]; exact List.mem_cons_self _ _
        have hL1ne : L1 ≠ [] := hWnonempty L1 hL1mem
        refine ⟨?_, ?_, ?_, ?_, ?_, ?_, ?_⟩
        · -- pyStrip q ≠ []
          obtain ⟨c1, L1t, hc1⟩ := List.exists_cons_of_ne_nil hL1ne
          have hc1ws : isWS c1 = false :=
            (hlinefacts L1 hL1mem).2.1 c1 (by rw [hc1]; rfl)
          intro hnil
          have hall := (pyStrip_eq_nil_iff _).mp hnil
          have hc1mem : c1 ∈ q := by
            rw [hred]
            exact mem_joinSep_of_mem ['\n'] W L1 hL1mem c1
              (by rw [hc1]; exact List.mem_cons_self _ _)
          rw [hall c1 hc1mem] at hc1ws
          simp at hc1ws
        · -- hasNN q = false
          rw [hred]
          exact hasNN_joinSep_lines W hWne2 hWnl
            (fun x hx => hWnonempty x ((List.tail_sublist W).subset hx))
        · -- processPara 30 q = q
          rw [hW12] at hlq
          cases W2 with
          | nil =>
            by_cases hlong2 : 30 * 2 < L1.length
            · have hbound := wrapLoop_line_bound (30 * 2) (pyWords l) (pyWords l) [] 0
                (fun w hw => hw) (Or.inl rfl) L1 (by rw [hW, hW12]; exact List.mem_cons_self _ _)
              rcases hbound with hle | hmemw
              · exact absurd hle (by omega)
              · have hL1w := hwf L1 hmemw
                have hpw : pyWords L1 = [L1] := by
                  have hnw := pyWordsAux_no_ws L1 [] hL1w.1 hL1w.2.2
                  simpa [pyWords] using hnw
                have hred3 : processPara 30 q
                    = if 30 * 2 < L1.length then
                        joinSep ['\n'] (wrapLoop (30 * 2) (pyWords L1) [] 0)
                      else joinSep ['\n'] [L1] := by
                  rw [processPara, hlq]
                rw [hred3, if_pos hlong2, hpw]
                have hnofit : ¬(0 + L1.length + 1 ≤ 30 * 2) := by omega
                rw [show wrapLoop (30 * 2) [L1] [] 0 = [L1] by
                  rw [show wrapLoop (30 * 2) [L1] [] 0
                      = wrapLoop (30 * 2) [] [L1] L1.length by simp [wrapLoop, hnofit]]
                  simp [wrapLoop, joinSep]]
                rw [hred, hW12]
            · have hred3 : processPara 30 q
                  = if 30 * 2 < L1.length then
                      joinSep ['\n'] (wrapLoop (30 * 2) (pyWords L1) [] 0)
                    else joinSep ['\n'] [L1] := by
                rw [processPara, hlq]
              rw [hred3, if_neg hlong2]
              rw [hred, hW12]
          | cons L2 W3 =>
            have hred3 : processPara 30 q = joinSep ['\n'] (L1 :: L2 :: W3) := by
              rw [processPara, hlq]
            rw [hred3, ← hlq]
            exact joinSep_splitOnChar '\n' q
        · intro x hx
          rw [hlq] at hx
          exact ⟨hWstrip x hx, hWcr x hx⟩
        · rw [hlq]
          exact chain'_of_ne_nil W hWnonempty
        · intro _
          rw [hred, hW12, head?_joinSep _ _ _ hL1ne]
          intro hx
          have := (hlinefacts L1 hL1mem).2.1 '\n' (by simpa using hx)
          rw [isWS_nl] at this
          simp at this
        · intro _
          rw [hred, hW12]
          have hgl : (L1 :: W2).getLast? ≠ none := by
            intro hnone
            exact (List.cons_ne_nil L1 W2) (List.getLast?_eq_none_iff.mp hnone)
          rcases hk : (L1 :: W2).getLast? with _ | Lk
          · exact absurd hk hgl
          · have hLkmem : Lk ∈ L1 :: W2 := List.mem_of_mem_getLast? (by simp [hk])
            rw [← hW12] at hLkmem
            rw [getLast?_joinSep _ _ Lk hk (hWnonempty Lk hLkmem)]
            intro hx
            have := (hlinefacts Lk hLkmem).2.2.1 '\n' (by simpa using hx)
            rw [isWS_nl] at this
            simp at this
      · -- single short line: unchanged
        have hqp : processPara 30 p = p := by
          have hred2 : processPara 30 p
              = if 30 * 2 < l.length then
                  joinSep ['\n'] (wrapLoop (30 * 2) (pyWords l) [] 0)
                else joinSep ['\n'] [l] := by
            rw [processPara, hls]
          rw [hred2, if_neg hlong]
          exact hjp
        have hq2 : q = p := by rw [← hq, hqp]
        subst hq2
        refine ⟨h1, h2, hqp, ?_, ?_, fun h => h, fun h => h⟩
        · intro x hx
          exact ⟨h3 x hx, hr x hx⟩
        · rw [hls]
          exact List.chain'_singleton l

/-- C6 counterexample: normalisation is not idempotent.  The input
`"&amp;amp;"` is unescaped once to `"&amp;"` by the first pass and a
second time to `"&"` by the second pass, so applying the pipeline twice
differs from applying it once. -/
theorem normalize_idempotent_counterexample :
    normalizeText (normalizeText ("&amp;amp;".data)) ≠ normalizeText ("&amp;amp;".data) := by
  decide

/-- C6 (amended): the only non-idempotent stage is the HTML-entity
unescaping step.  For every input whose normalised form is a fixed
point of `htmlUnescape` (in particular whenever the first pass produced
no fresh entity spellings), running the normalisation pipeline a second
time changes nothing: newline unification, blank-line collapsing,
per-line stripping, paragraph filtering and re-flow are all idempotent
on the output of the first pass. -/
theorem normalize_idempotent_of_unescape_fixed (x : Str)
    (h : htmlUnescape (normalizeText x) = normalizeText x) :
    normalizeText (normalizeText x) = normalizeText x := by
  obtain ⟨u, hu⟩ : ∃ u, clean_text x = u := ⟨_, rfl⟩
  obtain ⟨FP, hFP⟩ : ∃ FP, (splitNN u).filter (fun p => pyStrip p != []) = FP := ⟨_, rfl⟩
  obtain ⟨paras, hparas⟩ : ∃ ps, FP.map (processPara 30) = ps := ⟨_, rfl⟩
  have hy : normalizeText x = joinSep ['\n', '\n'] paras := by
    rw [normalizeText, process_paragraphs, hu, hFP, hparas]
  by_cases hpe : paras = []
  · rw [hy, hpe]
    rw [show joinSep ['\n', '\n'] ([] : List Str) = [] from rfl]
    decide
  · obtain ⟨CL, hCL⟩ : ∃ CL, collapseEmpty
        ((splitOnChar '\n' (collapse3 (normNl (htmlUnescape x)))).map pyStrip) = CL :=
      ⟨_, rfl⟩
    have huCL : u = joinSep ['\n'] CL := by
      rw [← hu, ← hCL]
      rfl
    have hCLne : CL ≠ [] := by
      rw [← hCL]
      obtain ⟨L0, rest, hsp⟩ := List.exists_cons_of_ne_nil
        (splitOnChar_ne_nil '\n' (collapse3 (normNl (htmlUnescape x))))
      rw [hsp, List.map_cons]
      exact collapseEmpty_ne_nil _ _
    have hCLfacts : ∀ l ∈ CL, pyStrip l = l ∧ '\n' ∉ l ∧ '\r' ∉ l := by
      intro l hl
      rw [← hCL] at hl
      rcases mem_collapseEmptyAux _ false l hl with rfl | hl2
      · exact ⟨rfl, by simp, by simp⟩
      · obtain ⟨l0, hl0mem, hl0⟩ := List.mem_map.mp hl2
        have hl0nl : '\n' ∉ l0 := mem_splitOnChar_no_sep '\n' _ l0 hl0mem
        subst hl0
        refine ⟨pyStrip_idem l0, ?_, ?_⟩
        · intro hmem
          exact hl0nl (pyStrip_sub l0 '\n' hmem)
        · intro hmem
          have hcr : '\r' ∈ l0 := pyStrip_sub l0 '\r' hmem
          have hm1 : '\r' ∈ collapse3 (normNl (htmlUnescape x)) :=
            mem_of_mem_splitOnChar '\n' _ l0 hl0mem '\r' hcr
          have hm2 : '\r' ∈ normNl (htmlUnescape x) :=
            mem_collapse3Aux _ 0 '\r' hm1
          exact normNl_no_cr (htmlUnescape x) hm2
    have hCLchain : List.Chain' (fun a b => ¬(a = [] ∧ b = [])) CL := by
      rw [← hCL]
      exact collapseEmptyAux_chain _ false
    have hNNNu : hasNNN u = false := by
      rw [huCL]
      exact hasNNN_joinSep_lines CL hCLne (fun l hl => (hCLfacts l hl).2.1) hCLchain
    have hlinesu : splitOnChar '\n' u = CL := by
      rw [huCL]
      exact splitOnChar_join_inv '\n' CL hCLne (fun l hl => (hCLfacts l hl).2.1)
    have hjoinNN : joinSep ['\n', '\n'] (splitNN u) = u := joinNN_splitNN u
    have hbridge : splitOnChar '\n' u
        = joinSep [([] : Str)] ((splitNN u).map (splitOnChar '\n')) := by
      conv_lhs => rw [← hjoinNN]
      exact lines_joinNN (splitNN u) (splitNN_ne_nil u)
    have hplines : ∀ pc ∈ splitNN u, ∀ l ∈ splitOnChar '\n' pc,
        pyStrip l = l ∧ '\r' ∉ l := by
      intro pc hpc l hl
      have hlCL : l ∈ CL := by
        rw [← hlinesu, hbridge]
        exact mem_joinSep_of_mem _ _ (splitOnChar '\n' pc)
          (List.mem_map_of_mem _ hpc) l hl
      exact ⟨(hCLfacts l hlCL).1, (hCLfacts l hlCL).2.2⟩
    have hFPfacts : ∀ pc ∈ FP,
        pyStrip pc ≠ [] ∧ hasNN pc = false ∧
        (∀ l ∈ splitOnChar '\n' pc, pyStrip l = l) ∧
        (∀ l ∈ splitOnChar '\n' pc, '\r' ∉ l) := by
      intro pc hpc
      rw [← hFP] at hpc
      have hmem : pc ∈ splitNN u := List.mem_of_mem_filter hpc
      have hkeep : pyStrip pc ≠ [] := by
        have hb := List.of_mem_filter hpc
        simpa using hb
      exact ⟨hkeep, splitNN_no_NN u pc hmem,
        fun l hl => (hplines pc hmem l hl).1,
        fun l hl => (hplines pc hmem l hl).2⟩
    have hparaFacts : ∀ q ∈ paras,
        pyStrip q ≠ [] ∧ hasNN q = false ∧ processPara 30 q = q ∧
        (∀ l ∈ splitOnChar '\n' q, pyStrip l = l ∧ '\r' ∉ l) ∧
        List.Chain' (fun a b => ¬(a = [] ∧ b = [])) (splitOnChar '\n' q) := by
      intro q hq
      rw [← hparas] at hq
      obtain ⟨pc, hpc, hq2⟩ := List.mem_map.mp hq
      obtain ⟨f1, f2, f3, f4⟩ := hFPfacts pc hpc
      obtain ⟨g1, g2, g3, g4, g5, _, _⟩ := paraFacts pc f1 f2 f3 f4 q hq2
      exact ⟨g1, g2, g3, g4, g5⟩
    have htailp : ∀ q ∈ paras.tail, q.head? ≠ some '\n' := by
      intro q hq
      rw [← hparas, ← List.map_tail] at hq
      obtain ⟨pc, hpc, hq2⟩ := List.mem_map.mp hq
      have hpc2 : pc ∈ (splitNN u).tail :=
        mem_tail_filter (fun p => pyStrip p != []) (splitNN u) pc (by rw [hFP]; exact hpc)
      have hpchead : pc.head? ≠ some '\n' := splitNN_tail_no_nl u hNNNu pc hpc2
      have hpcFP : pc ∈ FP := (List.tail_sublist FP).subset hpc
      obtain ⟨f1, f2, f3, f4⟩ := hFPfacts pc hpcFP
      obtain ⟨_, _, _, _, _, g6, _⟩ := paraFacts pc f1 f2 f3 f4 q hq2
      exact g6 hpchead
    have hlastp : ∀ q ∈ paras.dropLast, q.getLast? ≠ some '\n' := by
      intro q hq
      rw [← hparas, ← List.map_dropLast] at hq
      obtain ⟨pc, hpc, hq2⟩ := List.mem_map.mp hq
      have hpc2 : pc ∈ (splitNN u).dropLast :=
        mem_dropLast_filter (fun p => pyStrip p != []) (splitNN u) pc
          (by rw [hFP]; exact hpc)
      have hpclast : pc.getLast? ≠ some '\n' := splitNN_nonlast_no_nl u pc hpc2
      have hpcFP : pc ∈ FP := (List.dropLast_sublist FP).subset hpc
      obtain ⟨f1, f2, f3, f4⟩ := hFPfacts pc hpcFP
      obtain ⟨_, _, _, _, _, _, g7⟩ := paraFacts pc f1 f2 f3 f4 q hq2
      exact g7 hpclast
    obtain ⟨y, hydef⟩ : ∃ y, joinSep ['\n', '\n'] paras = y := ⟨_, rfl⟩
    rw [hy, hydef]
    rw [hy, hydef] at h
    have hyne : ∀ q ∈ paras, q ≠ [] := by
      intro q hq hqe
      have hs := (hparaFacts q hq).1
      rw [hqe] at hs
      exact hs rfl
    have hLY : splitOnChar '\n' y
        = joinSep [([] : Str)] (paras.map (splitOnChar '\n')) := by
      rw [← hydef]
      exact lines_joinNN paras hpe
    have hLYfacts : ∀ l ∈ splitOnChar '\n' y, pyStrip l = l ∧ '\r' ∉ l := by
      intro l hl
      rw [hLY] at hl
      rcases mem_joinSep _ _ l hl with hsep | ⟨g, hg, hlg⟩
      · simp at hsep
        subst hsep
        exact ⟨rfl, by simp⟩
      · obtain ⟨q, hq, hgq⟩ := List.mem_map.mp hg
        subst hgq
        exact (hparaFacts q hq).2.2.2.1 l hlg
    have hLYnl : ∀ l ∈ splitOnChar '\n' y, '\n' ∉ l :=
      mem_splitOnChar_no_sep '\n' y
    have hLYchain : List.Chain' (fun a b => ¬(a = [] ∧ b = [])) (splitOnChar '\n' y) := by
      rw [hLY]
      refine chain'_joinSep (paras.map (splitOnChar '\n')) ?_ ?_ ?_ ?_
      · intro g hg
        obtain ⟨q, hq, hgq⟩ := List.mem_map.mp hg
        subst hgq
        exact splitOnChar_ne_nil '\n' q
      · intro g hg
        obtain ⟨q, hq, hgq⟩ := List.mem_map.mp hg
        subst hgq
        exact (hparaFacts q hq).2.2.2.2
      · intro g hg
        rw [← List.map_tail] at hg
        obtain ⟨q, hq, hgq⟩ := List.mem_map.mp hg
        subst hgq
        have hq2 : q ∈ paras := (List.tail_sublist paras).subset hq
        exact lines_head_ne_empty q (hyne q hq2) (htailp q hq)
      · intro g hg
        rw [← List.map_dropLast] at hg
        obtain ⟨q, hq, hgq⟩ := List.mem_map.mp hg
        subst hgq
        have hq2 : q ∈ paras := (List.dropLast_sublist paras).subset hq
        exact lines_getLast_ne_empty q (hyne q hq2) (hlastp q hq)
    have hjy : joinSep ['\n'] (splitOnChar '\n' y) = y := joinSep_splitOnChar '\n' y
    have hcrY : '\r' ∉ y := by
      intro hmem
      rw [← hjy] at hmem
      rcases mem_joinSep _ _ '\r' hmem with hsep | ⟨l, hl, hcl⟩
      · simp at hsep
      · exact (hLYfacts l hl).2 hcl
    have hNNNy : hasNNN y = false := by
      conv_lhs => rw [← hjy]
      exact hasNNN_joinSep_lines _ (splitOnChar_ne_nil '\n' y) hLYnl hLYchain
    have hclean : clean_text y = y := by
      show joinSep ['\n'] (collapseEmpty
        ((splitOnChar '\n' (collapse3 (normNl (htmlUnescape y)))).map pyStrip)) = y
      rw [h, normNl_id y hcrY, collapse3_id y hNNNy]
      rw [map_eq_self_of pyStrip (splitOnChar '\n' y) (fun l hl => (hLYfacts l hl).1)]
      rw [show collapseEmpty (splitOnChar '\n' y)
          = collapseEmptyAux false (splitOnChar '\n' y) from rfl]
      rw [(collapseEmptyAux_id (splitOnChar '\n' y) hLYchain).1]
      exact hjy
    have hsplitNNy : splitNN y = paras := by
      rw [← hydef]
      exact splitNN_joinSep paras hpe (fun q hq => (hparaFacts q hq).2.1) hlastp
    have hfilter : paras.filter (fun p => pyStrip p != []) = paras := by
      refine List.filter_eq_self.mpr ?_
      intro q hq
      simpa using (hparaFacts q hq).1
    have hmap : paras.map (processPara 30) = paras :=
      map_eq_self_of (processPara 30) paras (fun q hq => (hparaFacts q hq).2.2.1)
    rw [normalizeText, hclean, process_paragraphs, hsplitNNy, hfilter, hmap, hydef]

/-- C6 witness: the amended idempotence theorem applied to the concrete
input `"ab"`, whose normalised form contains no HTML entity and is
therefore a fixed point of `htmlUnescape`. -/
theorem normalize_idempotent_witness :
    htmlUnescape (normalizeText ("ab".data)) = normalizeText ("ab".data) ∧
    normalizeText (normalizeText ("ab".data)) = normalizeText ("ab".data) :=
  ⟨by decide, normalize_idempotent_of_unescape_fixed ("ab".data) (by decide)⟩
